import Mathlib

set_option maxRecDepth 100000

/-!
Shallow embedding of the TapeFlow C++ matching engine
(`src/cpp-engine/include/orderbook.hpp`, `order.hpp`): limit order book with
price-time priority matching, plus the WebSocket handshake helpers (SHA-1,
Base64, frame construction).  Machine doubles are modelled as exact rationals
(the source relies on exact floating-point comparisons); `uint32_t`
arithmetic in SHA-1 is modelled as `Nat` with explicit `% 2 ^ 32`.
Timestamps come from the wall clock and are diagnostics only (no behaviour
depends on them), so they are not part of the model.
-/

/-- `Side` enum from order.hpp. -/
inductive Side where
  | bid
  | ask
deriving DecidableEq, Repr

/-- `Order` struct from order.hpp (id, side, price, remaining quantity).
The `timestamp` field is diagnostics-only wall-clock data and is omitted. -/
structure Order where
  id : Nat
  side : Side
  price : ℚ
  quantity : ℚ
deriving DecidableEq, Repr

/-- `Order::isBid`. -/
def Order.isBid (o : Order) : Bool := o.side = Side.bid

/-- `Order::isFilled`: `quantity <= 0.0`. -/
def Order.isFilled (o : Order) : Bool := o.quantity ≤ 0

/-- `Trade` struct from order.hpp (timestamp again omitted). -/
structure Trade where
  bidOrderId : Nat
  askOrderId : Nat
  price : ℚ
  quantity : ℚ
deriving DecidableEq, Repr

/-- `OrderQueue`: FIFO queue of orders at one price level (`std::list<Order>`). -/
abbrev OrderQueue := List Order

/-- A price ladder: `std::map<double, OrderQueue>` as its iteration sequence.
For `bids_` (comparator `std::greater`) the list is kept in descending key
order; for `asks_` in ascending key order. -/
abbrev Ladder := List (ℚ × OrderQueue)

/-- The `OrderLocation` entry of `orderIndex_`.  The C++ stores a list
iterator; the iterator is determined by the order's side, its price level and
its (unique) id, so the model records side and price. -/
structure OrderLocation where
  side : Side
  price : ℚ
deriving DecidableEq, Repr

/-- `OrderBook` state (symbol string omitted; it is never read by the
operations under proof). -/
structure OrderBook where
  bids : Ladder
  asks : Ladder
  orderIndex : List (Nat × OrderLocation)
  nextOrderId : Nat
  tradeCount : Nat
  lastPrice : ℚ
deriving DecidableEq, Repr

/-- A freshly constructed book: `nextOrderId_(1), lastPrice_(0.0)`. -/
def emptyBook : OrderBook := ⟨[], [], [], 1, 0, 0⟩

/-- Result of the inner matching loop over one price-level queue. -/
structure QMatch where
  agg : Order
  queue : OrderQueue
  trades : List Trade
  removed : List Nat
deriving DecidableEq, Repr

/-- Result of the outer matching loop over a ladder. -/
structure LMatch where
  agg : Order
  ladder : Ladder
  trades : List Trade
  removed : List Nat
deriving DecidableEq, Repr

/-- Inner `while` loop of `OrderBook::matchBid`: fill the incoming bid
against the FIFO queue of one ask level.  Each step fills
`min(bid.quantity, ask.quantity)` at the maker's (ask's) price; a fully
filled maker is erased from the id index (collected in `removed`) and popped
from the queue.  When the maker is not fully filled the incoming bid is
(`fillQty = bid.quantity`), and the source loop exits on its
`!bid.isFilled()` condition. -/
def matchQueueBid : Order → OrderQueue → QMatch
  | b, [] => ⟨b, [], [], []⟩
  | b, a :: rest =>
    if b.isFilled then ⟨b, a :: rest, [], []⟩
    else
      let fillQty := min b.quantity a.quantity
      let t : Trade := ⟨b.id, a.id, a.price, fillQty⟩
      let b2 : Order := { b with quantity := b.quantity - fillQty }
      let a2 : Order := { a with quantity := a.quantity - fillQty }
      if a2.isFilled then
        let r := matchQueueBid b2 rest
        ⟨r.agg, r.queue, t :: r.trades, a.id :: r.removed⟩
      else
        ⟨b2, a2 :: rest, [t], []⟩

/-- Outer `while` loop of `OrderBook::matchBid` over the ask ladder
(ascending price order, `asks_.begin()` first).  Breaks when the bid is
filled or `bid.price < askPrice`; an emptied level is erased. -/
def matchBidLevels : Order → Ladder → LMatch
  | b, [] => ⟨b, [], [], []⟩
  | b, (p, q) :: rest =>
    if b.isFilled then ⟨b, (p, q) :: rest, [], []⟩
    else if b.price < p then ⟨b, (p, q) :: rest, [], []⟩
    else
      let r := matchQueueBid b q
      if r.queue.isEmpty then
        let r2 := matchBidLevels r.agg rest
        ⟨r2.agg, r2.ladder, r.trades ++ r2.trades, r.removed ++ r2.removed⟩
      else
        ⟨r.agg, (p, r.queue) :: rest, r.trades, r.removed⟩

/-- Inner `while` loop of `OrderBook::matchAsk`: fill the incoming ask
against the FIFO queue of one bid level; trade price is the maker's (bid's)
price, `bidOrderId` is the maker's id. -/
def matchQueueAsk : Order → OrderQueue → QMatch
  | a, [] => ⟨a, [], [], []⟩
  | a, b :: rest =>
    if a.isFilled then ⟨a, b :: rest, [], []⟩
    else
      let fillQty := min a.quantity b.quantity
      let t : Trade := ⟨b.id, a.id, b.price, fillQty⟩
      let a2 : Order := { a with quantity := a.quantity - fillQty }
      let b2 : Order := { b with quantity := b.quantity - fillQty }
      if b2.isFilled then
        let r := matchQueueAsk a2 rest
        ⟨r.agg, r.queue, t :: r.trades, b.id :: r.removed⟩
      else
        ⟨a2, b2 :: rest, [t], []⟩

/-- Outer `while` loop of `OrderBook::matchAsk` over the bid ladder
(descending price order, `bids_.begin()` is the highest bid).  Breaks when
the ask is filled or `ask.price > bidPrice`. -/
def matchAskLevels : Order → Ladder → LMatch
  | a, [] => ⟨a, [], [], []⟩
  | a, (p, q) :: rest =>
    if a.isFilled then ⟨a, (p, q) :: rest, [], []⟩
    else if p < a.price then ⟨a, (p, q) :: rest, [], []⟩
    else
      let r := matchQueueAsk a q
      if r.queue.isEmpty then
        let r2 := matchAskLevels r.agg rest
        ⟨r2.agg, r2.ladder, r.trades ++ r2.trades, r.removed ++ r2.removed⟩
      else
        ⟨r.agg, (p, r.queue) :: rest, r.trades, r.removed⟩

/-- `orderIndex_.erase(id)` for each fully filled maker collected during
matching. -/
def eraseIds (idx : List (Nat × OrderLocation)) (ids : List Nat) :
    List (Nat × OrderLocation) :=
  ids.foldl (fun acc i => acc.eraseP (fun e => e.1 == i)) idx

/-- `executeTrade` sets `lastPrice_` once per trade; after a batch the field
holds the last trade's price (unchanged when no trade occurred). -/
def lastTradePrice (ts : List Trade) (dflt : ℚ) : ℚ :=
  match ts.getLast? with
  | none => dflt
  | some t => t.price

/-- `std::map::operator[]` followed by `push_back`, for the ask ladder
(ascending keys): append the order at the tail of its price level's queue,
creating the level at its sorted position if absent. -/
def addToLadderAsc (o : Order) : Ladder → Ladder
  | [] => [(o.price, [o])]
  | (p, q) :: rest =>
    if o.price < p then (o.price, [o]) :: (p, q) :: rest
    else if o.price = p then (p, q ++ [o]) :: rest
    else (p, q) :: addToLadderAsc o rest

/-- Same for the bid ladder, which is keyed by `std::greater` (descending). -/
def addToLadderDesc (o : Order) : Ladder → Ladder
  | [] => [(o.price, [o])]
  | (p, q) :: rest =>
    if p < o.price then (o.price, [o]) :: (p, q) :: rest
    else if o.price = p then (p, q ++ [o]) :: rest
    else (p, q) :: addToLadderDesc o rest

/-- `OrderBook::addToBook`: push the residual order at the tail of its own
side's level queue and record its location in the id index
(`orderIndex_[order.id] = ...`, i.e. insert-or-overwrite). -/
def OrderBook.addToBook (bk : OrderBook) (o : Order) : OrderBook :=
  match o.side with
  | Side.bid =>
    { bk with
      bids := addToLadderDesc o bk.bids
      orderIndex :=
        (o.id, OrderLocation.mk o.side o.price) ::
          bk.orderIndex.eraseP (fun e => e.1 == o.id) }
  | Side.ask =>
    { bk with
      asks := addToLadderAsc o bk.asks
      orderIndex :=
        (o.id, OrderLocation.mk o.side o.price) ::
          bk.orderIndex.eraseP (fun e => e.1 == o.id) }

/-- Result of `OrderBook::addOrder`: the returned id, the post-state, and the
trades emitted (in callback invocation order) during the call. -/
structure AddResult where
  id : Nat
  book : OrderBook
  trades : List Trade
deriving DecidableEq, Repr

/-- `OrderBook::addOrder`: allocate `nextOrderId_++`, match against the
opposite ladder, book the residual if not filled, apply the
`executeTrade` side effects (`tradeCount_++` and `lastPrice_ = price` per
trade).  Returns the order id, or 0 when fully filled.  Note the source
performs no validation of `price` or `quantity`. -/
def OrderBook.addOrder (bk : OrderBook) (side : Side) (price quantity : ℚ) :
    AddResult :=
  let order : Order := ⟨bk.nextOrderId, side, price, quantity⟩
  let bk1 : OrderBook := { bk with nextOrderId := bk.nextOrderId + 1 }
  match side with
  | Side.bid =>
    let r := matchBidLevels order bk1.asks
    let bk2 : OrderBook :=
      { bk1 with
        asks := r.ladder
        orderIndex := eraseIds bk1.orderIndex r.removed
        tradeCount := bk1.tradeCount + r.trades.length
        lastPrice := lastTradePrice r.trades bk1.lastPrice }
    if r.agg.isFilled then ⟨0, bk2, r.trades⟩
    else ⟨r.agg.id, bk2.addToBook r.agg, r.trades⟩
  | Side.ask =>
    let r := matchAskLevels order bk1.bids
    let bk2 : OrderBook :=
      { bk1 with
        bids := r.ladder
        orderIndex := eraseIds bk1.orderIndex r.removed
        tradeCount := bk1.tradeCount + r.trades.length
        lastPrice := lastTradePrice r.trades bk1.lastPrice }
    if r.agg.isFilled then ⟨0, bk2, r.trades⟩
    else ⟨r.agg.id, bk2.addToBook r.agg, r.trades⟩

/-- `levels.find(price)` then erase the cancelled order from the queue,
dropping the level if its queue becomes empty (`OrderBook::cancelOrder`
body). -/
def removeFromLadder (p : ℚ) (orderId : Nat) : Ladder → Ladder
  | [] => []
  | (lp, q) :: rest =>
    if lp = p then
      let q2 := q.eraseP (fun o => o.id == orderId)
      if q2.isEmpty then rest else (lp, q2) :: rest
    else (lp, q) :: removeFromLadder p orderId rest

/-- `OrderBook::cancelOrder`: look the id up in the index (absent → false);
otherwise remove the order from its queue on its side, drop an emptied
level, erase the index entry, return true. -/
def OrderBook.cancelOrder (bk : OrderBook) (orderId : Nat) :
    Bool × OrderBook :=
  match bk.orderIndex.find? (fun e => e.1 == orderId) with
  | none => (false, bk)
  | some e =>
    let bk1 : OrderBook :=
      match e.2.side with
      | Side.bid => { bk with bids := removeFromLadder e.2.price orderId bk.bids }
      | Side.ask => { bk with asks := removeFromLadder e.2.price orderId bk.asks }
    (true, { bk1 with orderIndex := bk1.orderIndex.eraseP (fun x => x.1 == orderId) })

/-- `OrderBook::getBestBid`: `bids_.empty() ? 0.0 : bids_.rbegin()->first`.
`bids_` iterates in descending key order, so `rbegin()` is the last element
of the model list. -/
def OrderBook.getBestBid (bk : OrderBook) : ℚ :=
  match bk.bids.getLast? with
  | none => 0
  | some pq => pq.1

/-- `OrderBook::getBestAsk`: `asks_.empty() ? 0.0 : asks_.begin()->first`. -/
def OrderBook.getBestAsk (bk : OrderBook) : ℚ :=
  match bk.asks.head? with
  | none => 0
  | some pq => pq.1

/-- `OrderBook::getTradeCount`. -/
def OrderBook.getTradeCount (bk : OrderBook) : Nat := bk.tradeCount

/-- `OrderBook::getOrderCount`: `nextOrderId_ - 1`. -/
def OrderBook.getOrderCount (bk : OrderBook) : Nat := bk.nextOrderId - 1

/-- `OrderBook::getLastPrice`. -/
def OrderBook.getLastPrice (bk : OrderBook) : ℚ := bk.lastPrice

/-! ## Derived observables and invariants used by the claims -/

/-- The ladder on an order's own side. -/
def OrderBook.sideLadder (bk : OrderBook) : Side → Ladder
  | Side.bid => bk.bids
  | Side.ask => bk.asks

/-- The FIFO queue at price `p` (`levels.find(p)`), if that level exists. -/
def levelQueue (l : Ladder) (p : ℚ) : Option OrderQueue :=
  (l.find? (fun e => e.1 == p)).map Prod.snd

/-- All resting orders of a ladder, in iteration order: level by level (best
maker price first), FIFO order within each level. -/
def ladderOrders (l : Ladder) : List Order :=
  l.foldr (fun pq acc => pq.2 ++ acc) []

/-- Total resting quantity of a queue. -/
def queueMass (q : OrderQueue) : ℚ := (q.map Order.quantity).sum

/-- Total resting quantity of a ladder. -/
def ladderMass (l : Ladder) : ℚ := (l.map (fun pq => queueMass pq.2)).sum

/-- Total resting quantity of the book. -/
def OrderBook.bookMass (bk : OrderBook) : ℚ :=
  ladderMass bk.bids + ladderMass bk.asks

/-- The level prices of a ladder in iteration order. -/
def ladderKeys (l : Ladder) : List ℚ := l.map Prod.fst

/-- Every order sits in the level keyed by its own price (maintained by
`addToBook`, which inserts at `levels[order.price]`). -/
def ladderKeysOk (l : Ladder) : Prop :=
  ∀ pq ∈ l, ∀ o ∈ pq.2, o.price = pq.1

instance (l : Ladder) : Decidable (ladderKeysOk l) := by
  unfold ladderKeysOk
  infer_instance

/-- Ladder ordering invariant of the two `std::map`s, together with the
no-cross property relating the two ladders. -/
def BookOrdered (bk : OrderBook) : Prop :=
  List.Pairwise (fun a b => b < a) (ladderKeys bk.bids) ∧
  List.Pairwise (fun a b => a < b) (ladderKeys bk.asks) ∧
  ∀ pb ∈ ladderKeys bk.bids, ∀ pa ∈ ladderKeys bk.asks, pb < pa

/-- Book states reachable from a fresh book by the two public mutators. -/
inductive Reachable : OrderBook → Prop where
  | empty : Reachable emptyBook
  | add (bk : OrderBook) (side : Side) (p q : ℚ) (h : Reachable bk) :
      Reachable (bk.addOrder side p q).book
  | cancel (bk : OrderBook) (orderId : Nat) (h : Reachable bk) :
      Reachable (bk.cancelOrder orderId).2

/-! ## Operation traces (for the whole-history conservation law) -/

/-- One public mutator call. -/
inductive Op where
  | add (side : Side) (price quantity : ℚ)
  | cancel (orderId : Nat)
deriving DecidableEq, Repr

/-- Quantity placed by an operation. -/
def Op.placedQty : Op → ℚ
  | Op.add _ _ q => q
  | Op.cancel _ => 0

/-- `Σ placed quantity` over a trace. -/
def placedSum (ops : List Op) : ℚ := (ops.map Op.placedQty).sum

/-- Whether an operation is an `add` with positive quantity (cancels are
unconstrained). -/
def Op.qtyPositive : Op → Bool
  | Op.add _ _ q => 0 < q
  | Op.cancel _ => true

/-- `Σ traded quantity` of a batch of trades. -/
def tradesQty (ts : List Trade) : ℚ := (ts.map Trade.quantity).sum

/-- The residual quantity that a `cancelOrder` call on this book would remove
from the ladders: the quantity of the first order with this id in the level
the id index points to (0 when nothing is removed). -/
def cancelledQty (bk : OrderBook) (orderId : Nat) : ℚ :=
  match bk.orderIndex.find? (fun e => e.1 == orderId) with
  | none => 0
  | some e =>
    match (bk.sideLadder e.2.side).find? (fun x => x.1 == e.2.price) with
    | none => 0
    | some pq =>
      match pq.2.find? (fun o => o.id == orderId) with
      | none => 0
      | some o => o.quantity

/-- Accumulated quantities of a run: final book, total traded quantity,
total quantity removed by cancels, and total placed quantity of orders that
were fully filled without ever resting (id 0 returned). -/
structure RunStats where
  book : OrderBook
  traded : ℚ
  cancelled : ℚ
  neverRested : ℚ
deriving DecidableEq, Repr

/-- Run a trace from a book, accumulating the conservation quantities. -/
def runStats : OrderBook → List Op → RunStats
  | bk, [] => ⟨bk, 0, 0, 0⟩
  | bk, Op.add s p q :: rest =>
    let r := bk.addOrder s p q
    let s2 := runStats r.book rest
    ⟨s2.book, tradesQty r.trades + s2.traded, s2.cancelled,
      (if r.id = 0 then q else 0) + s2.neverRested⟩
  | bk, Op.cancel i :: rest =>
    let cq := cancelledQty bk i
    let s2 := runStats (bk.cancelOrder i).2 rest
    ⟨s2.book, s2.traded, cq + s2.cancelled, s2.neverRested⟩

/-! ## SHA-1 (`SHA1::hash` from order.hpp), on byte lists -/

/-- `SHA1::leftRotate`: 32-bit rotate left. -/
def leftRotate (x n : Nat) : Nat :=
  ((x <<< n) % 2 ^ 32) ||| (x >>> (32 - n))

/-- The padding loop of `SHA1::hash`: append `0x80`, zero-fill to 56 mod 64,
then the original bit length as 8 big-endian bytes. -/
def sha1Pad (input : List Nat) : List Nat :=
  let lenBits := input.length * 8
  let afterOne := input ++ [0x80]
  let zeros := (64 + 56 - afterOne.length % 64) % 64
  afterOne ++ List.replicate zeros 0 ++
    (List.range 8).map (fun i => (lenBits >>> ((7 - i) * 8)) &&& 0xFF)

/-- The message schedule `w[0..79]` of one 64-byte chunk. -/
def sha1W (chunk : List Nat) : Array Nat :=
  (List.range 80).foldl
    (fun w i =>
      if i < 16 then
        w.push (((chunk.getD (i * 4) 0) <<< 24) |||
          ((chunk.getD (i * 4 + 1) 0) <<< 16) |||
          ((chunk.getD (i * 4 + 2) 0) <<< 8) |||
          (chunk.getD (i * 4 + 3) 0))
      else
        w.push (leftRotate ((w.getD (i - 3) 0) ^^^ (w.getD (i - 8) 0) ^^^
          (w.getD (i - 14) 0) ^^^ (w.getD (i - 16) 0)) 1))
    #[]

/-- The 80-round compression of one chunk (`~b` on `uint32_t` is
`b ^^^ 0xFFFFFFFF`; additions are mod `2 ^ 32`). -/
def sha1Compress (w : Array Nat) (hs : List Nat) : List Nat :=
  let st := (List.range 80).foldl
    (fun st i =>
      match st with
      | (a, b, c, d, e) =>
        let f :=
          if i < 20 then (b &&& c) ||| ((b ^^^ 0xFFFFFFFF) &&& d)
          else if i < 40 then b ^^^ c ^^^ d
          else if i < 60 then (b &&& c) ||| (b &&& d) ||| (c &&& d)
          else b ^^^ c ^^^ d
        let k :=
          if i < 20 then 0x5A827999
          else if i < 40 then 0x6ED9EBA1
          else if i < 60 then 0x8F1BBCDC
          else 0xCA62C1D6
        let temp := (leftRotate a 5 + f + e + k + w.getD i 0) % 2 ^ 32
        (temp, a, leftRotate b 30, c, d))
    (hs.getD 0 0, hs.getD 1 0, hs.getD 2 0, hs.getD 3 0, hs.getD 4 0)
  match st with
  | (a, b, c, d, e) =>
    [(hs.getD 0 0 + a) % 2 ^ 32, (hs.getD 1 0 + b) % 2 ^ 32,
     (hs.getD 2 0 + c) % 2 ^ 32, (hs.getD 3 0 + d) % 2 ^ 32,
     (hs.getD 4 0 + e) % 2 ^ 32]

/-- The chunk loop of `SHA1::hash`, structurally recursive on the number of
64-byte chunks (the padded message length is a multiple of 64). -/
def sha1Loop : Nat → List Nat → List Nat → List Nat
  | 0, hs, _ => hs
  | n + 1, hs, bytes =>
    sha1Loop n (sha1Compress (sha1W (bytes.take 64)) hs) (bytes.drop 64)

/-- `SHA1::hash`: 20-byte digest of a byte list (big-endian serialisation of
`h0..h4`). -/
def sha1 (input : List Nat) : List Nat :=
  let padded := sha1Pad input
  let hs := sha1Loop (padded.length / 64)
    [0x67452301, 0xEFCDAB89, 0x98BADCFE, 0x10325476, 0xC3D2E1F0] padded
  hs.foldr
    (fun h acc => ((List.range 4).map (fun i => (h >>> (24 - i * 8)) &&& 0xFF)) ++ acc)
    []

/-! ## Base64 (`Base64::encode` from order.hpp) -/

/-- The Base64 alphabet. -/
def b64charTable : List Char :=
  "ABCDEFGHIJKLMNOPQRSTUVWXYZabcdefghijklmnopqrstuvwxyz0123456789+/".data

/-- `chars[n & 0x3F]`. -/
def b64char (n : Nat) : Char := b64charTable.getD n 'A'

/-- The inner `while (valb >= 0)` loop of `Base64::encode`.  The signed
counter `valb` (always ≥ −6) is carried as the natural number `valb + 6`, so
the loop condition `valb ≥ 0` becomes "argument ≥ 6"; returns the emitted
characters and the final counter. -/
def b64flush (val : Nat) : Nat → List Char × Nat
  | v + 6 =>
    let r := b64flush val v
    (b64char ((val >>> v) &&& 0x3F) :: r.1, r.2)
  | v => ([], v)

/-- The per-byte step of `Base64::encode`: `val = (val << 8) + c` (32-bit
`int` wraparound; only bits below 14 are ever extracted, so the sign bit is
immaterial), `valb += 8`, then flush.  State: `(val, valb + 6, output)`. -/
def b64step (st : Nat × Nat × List Char) (c : Nat) : Nat × Nat × List Char :=
  let val := ((st.1 <<< 8) + c) % 2 ^ 32
  let r := b64flush val (st.2.1 + 8)
  (val, r.2, st.2.2 ++ r.1)

/-- `Base64::encode`: fold over the input bytes (initial `val = 0`,
`valb = -6`), emit the tail character when `valb > -6`
(`chars[((val << 8) >> (valb + 8)) & 0x3F]`), pad with `=` to a multiple of
four. -/
def base64encode (input : List Nat) : String :=
  let st := input.foldl b64step (0, 0, [])
  let tail :=
    if 0 < st.2.1 then
      [b64char ((((st.1 <<< 8) % 2 ^ 32) >>> (st.2.1 + 2)) &&& 0x3F)]
    else []
  let chars := st.2.2 ++ tail
  String.mk (chars ++ List.replicate ((4 - chars.length % 4) % 4) '=')

/-! ## WebSocket handshake and framing (`WebSocketServer` from order.hpp) -/

/-- Bytes of an ASCII string (the C++ operates on `std::string` bytes). -/
def strBytes (s : String) : List Nat := s.data.map Char.toNat

/-- First index at which `pat` occurs in `hay` (`std::string::find`). -/
def findSub (hay pat : List Char) : Option Nat :=
  match hay with
  | [] => if pat.isEmpty then some 0 else none
  | _ :: rest =>
    if hay.take pat.length = pat then some 0
    else (findSub rest pat).map (· + 1)

/-- The key header literal searched by `performHandshake`. -/
def wsKeyHeaderChars : List Char := "Sec-WebSocket-Key: ".data

/-- The fixed RFC 6455 magic GUID. -/
def wsMagic : String := "258EAFA5-E914-47DA-95CA-C5AB0DC85B11"

/-- Key extraction of `performHandshake`: locate the key header; the key
value runs to the next CRLF (to end of buffer when absent, matching
`substr` with `npos`).  `none` when the header is absent (socket closed). -/
def performHandshakeKey (request : String) : Option String :=
  match findSub request.data wsKeyHeaderChars with
  | none => none
  | some i =>
    let rest := request.data.drop (i + wsKeyHeaderChars.length)
    match findSub rest ['\r', '\n'] with
    | none => some (String.mk rest)
    | some j => some (String.mk (rest.take j))

/-- `Base64::encode(SHA1::hash(key + magic))`. -/
def acceptKey (key : String) : String :=
  base64encode (sha1 (strBytes (key ++ wsMagic)))

/-- The fixed part of the `101 Switching Protocols` response. -/
def wsRespPre : String :=
  "HTTP/1.1 101 Switching Protocols\r\nUpgrade: websocket\r\nConnection: Upgrade\r\nSec-WebSocket-Accept: "

/-- The full handshake response sent by `performHandshake` (none when the
key header is absent). -/
def handshakeResponse (request : String) : Option String :=
  (performHandshakeKey request).map
    (fun key => wsRespPre ++ acceptKey key ++ "\r\n\r\n")

/-- `WebSocketServer::createFrame`: `0x81`, the length encoding, then the
payload bytes.  `broadcast` writes exactly this frame to every client. -/
def createFrame (message : List Nat) : List Nat :=
  let len := message.length
  (if len ≤ 125 then [0x81, len]
   else if len ≤ 65535 then [0x81, 126, (len >>> 8) &&& 0xFF, len &&& 0xFF]
   else [0x81, 127] ++ (List.range 8).map (fun i => (len >>> ((7 - i) * 8)) &&& 0xFF))
    ++ message

/-- `n` as `k` big-endian bytes. -/
def beBytes (k n : Nat) : List Nat :=
  (List.range k).map (fun i => (n >>> ((k - 1 - i) * 8)) &&& 0xFF)

/-- The frame length encoding as the spec words it, for comparison with
`createFrame`: one byte holding `len` if `len ≤ 125`; byte 126 followed by
`len` as 16-bit big-endian if `len ≤ 65535`; else byte 127 followed by `len`
as 64-bit big-endian. -/
def specLenEncoding (len : Nat) : List Nat :=
  if len ≤ 125 then [len]
  else if len ≤ 65535 then 126 :: beBytes 2 len
  else 127 :: beBytes 8 len

/-! ## Basic lemmas about the matching loops -/

theorem Order.isFilled_iff (o : Order) : o.isFilled = true ↔ o.quantity ≤ 0 := by
  simp [Order.isFilled]

theorem matchBidLevels_filled (b : Order) (l : Ladder) (h : b.isFilled = true) :
    matchBidLevels b l = ⟨b, l, [], []⟩ := by
  cases l with
  | nil => simp [matchBidLevels]
  | cons hd tl =>
    obtain ⟨p, q⟩ := hd
    simp [matchBidLevels, h]

theorem matchAskLevels_filled (a : Order) (l : Ladder) (h : a.isFilled = true) :
    matchAskLevels a l = ⟨a, l, [], []⟩ := by
  cases l with
  | nil => simp [matchAskLevels]
  | cons hd tl =>
    obtain ⟨p, q⟩ := hd
    simp [matchAskLevels, h]

/-- Claim C9: for every side and price, `addOrder` with `quantity ≤ 0`
returns 0, emits no trade, and leaves both ladders, the id index, the trade
count and the last traded price unchanged, yet still consumes one id so that
`getOrderCount` increases by exactly one. -/
theorem C9_nonpositive_quantity_frame (bk : OrderBook) (side : Side) (p q : ℚ)
    (hq : q ≤ 0) (hid : 1 ≤ bk.nextOrderId) :
    (bk.addOrder side p q).id = 0 ∧
    (bk.addOrder side p q).trades = [] ∧
    (bk.addOrder side p q).book.bids = bk.bids ∧
    (bk.addOrder side p q).book.asks = bk.asks ∧
    (bk.addOrder side p q).book.orderIndex = bk.orderIndex ∧
    (bk.addOrder side p q).book.getTradeCount = bk.getTradeCount ∧
    (bk.addOrder side p q).book.getLastPrice = bk.getLastPrice ∧
    (bk.addOrder side p q).book.getOrderCount = bk.getOrderCount + 1 := by
  have hfill : (Order.mk bk.nextOrderId side p q).isFilled = true := by
    simp [Order.isFilled, hq]
  cases side <;>
    simp [OrderBook.addOrder, matchBidLevels_filled _ _ hfill,
      matchAskLevels_filled _ _ hfill, eraseIds, lastTradePrice,
      OrderBook.getOrderCount, OrderBook.getTradeCount, OrderBook.getLastPrice,
      hfill] <;>
    omega

/-- Witness for C9 at a concrete input. -/
theorem C9_witness :
    (emptyBook.addOrder Side.bid 100 0).id = 0 ∧
    (emptyBook.addOrder Side.bid 100 0).book.getOrderCount =
      emptyBook.getOrderCount + 1 :=
  ⟨(C9_nonpositive_quantity_frame emptyBook Side.bid 100 0 (by norm_num)
      (by decide)).1,
   (C9_nonpositive_quantity_frame emptyBook Side.bid 100 0 (by norm_num)
      (by decide)).2.2.2.2.2.2.2⟩

/-- Claim C10: `cancelOrder` never executes a trade — the trade counter and
the last traded price (the observable side effects of `executeTrade`, which
is also the sole call site of the trade callback) are unchanged, as is the
order counter — and when it returns false the entire book state is exactly
unchanged. -/
theorem C10_cancel_frame (bk : OrderBook) (orderId : Nat) :
    (bk.cancelOrder orderId).2.getTradeCount = bk.getTradeCount ∧
    (bk.cancelOrder orderId).2.getOrderCount = bk.getOrderCount ∧
    (bk.cancelOrder orderId).2.getLastPrice = bk.getLastPrice ∧
    ((bk.cancelOrder orderId).1 = false → (bk.cancelOrder orderId).2 = bk) := by
  unfold OrderBook.cancelOrder
  cases h : bk.orderIndex.find? (fun e => e.1 == orderId) with
  | none =>
    simp [OrderBook.getTradeCount, OrderBook.getOrderCount,
      OrderBook.getLastPrice]
  | some e =>
    cases he : e.2.side <;>
      simp [OrderBook.getTradeCount, OrderBook.getOrderCount,
        OrderBook.getLastPrice, he]

/-- Witness for C10 at a concrete input (an id absent from a fresh book). -/
theorem C10_witness : (emptyBook.cancelOrder 5).2 = emptyBook :=
  (C10_cancel_frame emptyBook 5).2.2.2 (by decide)

/-- Counterexample to claim C1: `addOrder(BID, -1, 5)` on a fresh book does
not fail and does not leave the book unchanged — it returns id 1 and rests
the order on the bid ladder (the source performs no validation of price or
quantity and has no failure path). -/
theorem C1_counterexample :
    (emptyBook.addOrder Side.bid (-1) 5).id = 1 ∧
    (emptyBook.addOrder Side.bid (-1) 5).book.bids ≠ emptyBook.bids := by
  decide

/-- Claim C1 as amended: `addOrder` performs no input validation and cannot
fail.  A call with `quantity ≤ 0` returns 0 and leaves the ladders, index,
trade counter and last price unchanged (but still consumes an id); a call
with `quantity > 0` — whatever the sign of `price` — is processed like any
other order: against an empty opposite ladder it rests on the book, its id
is returned and its location is recorded in the index. -/
theorem C1_no_validation (bk : OrderBook) (side : Side) (p q : ℚ) :
    (q ≤ 0 →
      (bk.addOrder side p q).id = 0 ∧
      (bk.addOrder side p q).trades = [] ∧
      (bk.addOrder side p q).book.bids = bk.bids ∧
      (bk.addOrder side p q).book.asks = bk.asks ∧
      (bk.addOrder side p q).book.orderIndex = bk.orderIndex ∧
      (bk.addOrder side p q).book.nextOrderId = bk.nextOrderId + 1) ∧
    (0 < q →
      (match side with | Side.bid => bk.asks | Side.ask => bk.bids) = [] →
      (bk.addOrder side p q).id = bk.nextOrderId ∧
      (bk.addOrder side p q).trades = [] ∧
      ((bk.addOrder side p q).id, OrderLocation.mk side p) ∈
        (bk.addOrder side p q).book.orderIndex) := by
  constructor
  · intro hq
    have hfill : (Order.mk bk.nextOrderId side p q).isFilled = true := by
      simp [Order.isFilled, hq]
    cases side <;>
      simp [OrderBook.addOrder, matchBidLevels_filled _ _ hfill,
        matchAskLevels_filled _ _ hfill, eraseIds, lastTradePrice, hfill]
  · intro hq hopp
    have hfill : (Order.mk bk.nextOrderId side p q).isFilled = false := by
      simp [Order.isFilled]
      linarith
    cases side <;>
      simp only at hopp <;>
      simp [OrderBook.addOrder, hopp, matchBidLevels, matchAskLevels, hfill,
        OrderBook.addToBook, eraseIds, lastTradePrice]

/-- Witness for the amended C1 at concrete inputs: a negative-price,
positive-quantity bid on a fresh book is accepted and indexed, and a
zero-quantity add returns 0 with ladders unchanged. -/
theorem C1_witness :
    ((emptyBook.addOrder Side.bid (-3) 2).id = 1 ∧
      (1, OrderLocation.mk Side.bid (-3)) ∈
        (emptyBook.addOrder Side.bid (-3) 2).book.orderIndex) ∧
    ((emptyBook.addOrder Side.ask 7 (-2)).id = 0 ∧
      (emptyBook.addOrder Side.ask 7 (-2)).book.asks = emptyBook.asks) :=
  ⟨⟨((C1_no_validation emptyBook Side.bid (-3) 2).2 (by norm_num) (by decide)).1,
    ((C1_no_validation emptyBook Side.bid (-3) 2).2 (by norm_num) (by decide)).2.2⟩,
   ⟨((C1_no_validation emptyBook Side.ask 7 (-2)).1 (by norm_num)).1,
    ((C1_no_validation emptyBook Side.ask 7 (-2)).1 (by norm_num)).2.2.2.1⟩⟩

/-! ## Preservation lemmas for the matching loops -/

theorem matchQueueBid_agg (b : Order) (q : OrderQueue) :
    (matchQueueBid b q).agg.id = b.id ∧
    (matchQueueBid b q).agg.side = b.side ∧
    (matchQueueBid b q).agg.price = b.price ∧
    (matchQueueBid b q).agg.quantity =
      b.quantity - ((matchQueueBid b q).trades.map Trade.quantity).sum := by
  induction q generalizing b with
  | nil => simp [matchQueueBid]
  | cons a rest ih =>
    rw [matchQueueBid]
    by_cases hf : b.isFilled
    · simp [hf]
    · simp only [hf, Bool.false_eq_true, if_false]
      split
      · obtain ⟨h1, h2, h3, h4⟩ :=
          ih { b with quantity := b.quantity - min b.quantity a.quantity }
        refine ⟨h1, h2, h3, ?_⟩
        simp only [List.map_cons, List.sum_cons]
        rw [h4]
        ring
      · simp

theorem matchQueueAsk_agg (a : Order) (q : OrderQueue) :
    (matchQueueAsk a q).agg.id = a.id ∧
    (matchQueueAsk a q).agg.side = a.side ∧
    (matchQueueAsk a q).agg.price = a.price ∧
    (matchQueueAsk a q).agg.quantity =
      a.quantity - ((matchQueueAsk a q).trades.map Trade.quantity).sum := by
  induction q generalizing a with
  | nil => simp [matchQueueAsk]
  | cons b rest ih =>
    rw [matchQueueAsk]
    by_cases hf : a.isFilled
    · simp [hf]
    · simp only [hf, Bool.false_eq_true, if_false]
      split
      · obtain ⟨h1, h2, h3, h4⟩ :=
          ih { a with quantity := a.quantity - min a.quantity b.quantity }
        refine ⟨h1, h2, h3, ?_⟩
        simp only [List.map_cons, List.sum_cons]
        rw [h4]
        ring
      · simp

theorem matchBidLevels_agg (b : Order) (l : Ladder) :
    (matchBidLevels b l).agg.id = b.id ∧
    (matchBidLevels b l).agg.side = b.side ∧
    (matchBidLevels b l).agg.price = b.price ∧
    (matchBidLevels b l).agg.quantity =
      b.quantity - ((matchBidLevels b l).trades.map Trade.quantity).sum := by
  induction l generalizing b with
  | nil => simp [matchBidLevels]
  | cons hd rest ih =>
    obtain ⟨p, q⟩ := hd
    rw [matchBidLevels]
    by_cases hf : b.isFilled
    · simp [hf]
    · by_cases hp : b.price < p
      · simp [hf, hp]
      · simp only [hf, hp, Bool.false_eq_true, if_false]
        split
        · obtain ⟨h1, h2, h3, h4⟩ := ih (matchQueueBid b q).agg
          obtain ⟨g1, g2, g3, g4⟩ := matchQueueBid_agg b q
          refine ⟨h1.trans g1, h2.trans g2, h3.trans g3, ?_⟩
          simp only [List.map_append, List.sum_append]
          rw [h4, g4]
          ring
        · exact matchQueueBid_agg b q

theorem matchAskLevels_agg (a : Order) (l : Ladder) :
    (matchAskLevels a l).agg.id = a.id ∧
    (matchAskLevels a l).agg.side = a.side ∧
    (matchAskLevels a l).agg.price = a.price ∧
    (matchAskLevels a l).agg.quantity =
      a.quantity - ((matchAskLevels a l).trades.map Trade.quantity).sum := by
  induction l generalizing a with
  | nil => simp [matchAskLevels]
  | cons hd rest ih =>
    obtain ⟨p, q⟩ := hd
    rw [matchAskLevels]
    by_cases hf : a.isFilled
    · simp [hf]
    · by_cases hp : p < a.price
      · simp [hf, hp]
      · simp only [hf, hp, Bool.false_eq_true, if_false]
        split
        · obtain ⟨h1, h2, h3, h4⟩ := ih (matchQueueAsk a q).agg
          obtain ⟨g1, g2, g3, g4⟩ := matchQueueAsk_agg a q
          refine ⟨h1.trans g1, h2.trans g2, h3.trans g3, ?_⟩
          simp only [List.map_append, List.sum_append]
          rw [h4, g4]
          ring
        · exact matchQueueAsk_agg a q

/-- Claim C7: for every handshake request in which the key header is found,
the response carries the accept key
`Base64(SHA-1(key ++ "258EAFA5-E914-47DA-95CA-C5AB0DC85B11"))`; in
particular the RFC sample key `dGhlIHNhbXBsZSBub25jZQ==` yields
`s3pPLMBiTxaQ9kYGzzhZRbK+xOo=`. -/
theorem C7_handshake_accept_key (req key : String)
    (h : performHandshakeKey req = some key) :
    handshakeResponse req =
      some (wsRespPre ++ base64encode (sha1 (strBytes (key ++ wsMagic))) ++
        "\r\n\r\n") ∧
    acceptKey "dGhlIHNhbXBsZSBub25jZQ==" = "s3pPLMBiTxaQ9kYGzzhZRbK+xOo=" := by
  constructor
  · simp [handshakeResponse, h, acceptKey]
  · decide

/-- Witness for C7 on a concrete upgrade request. -/
theorem C7_witness :
    handshakeResponse
        "GET /chat HTTP/1.1\r\nHost: server.example.com\r\nUpgrade: websocket\r\nConnection: Upgrade\r\nSec-WebSocket-Key: dGhlIHNhbXBsZSBub25jZQ==\r\nSec-WebSocket-Version: 13\r\n\r\n" =
      some (wsRespPre ++
        base64encode (sha1 (strBytes ("dGhlIHNhbXBsZSBub25jZQ==" ++ wsMagic))) ++
        "\r\n\r\n") ∧
    acceptKey "dGhlIHNhbXBsZSBub25jZQ==" = "s3pPLMBiTxaQ9kYGzzhZRbK+xOo=" :=
  ⟨(C7_handshake_accept_key
      "GET /chat HTTP/1.1\r\nHost: server.example.com\r\nUpgrade: websocket\r\nConnection: Upgrade\r\nSec-WebSocket-Key: dGhlIHNhbXBsZSBub25jZQ==\r\nSec-WebSocket-Version: 13\r\n\r\n"
      "dGhlIHNhbXBsZSBub25jZQ==" (by decide)).1,
   (C7_handshake_accept_key
      "GET /chat HTTP/1.1\r\nHost: server.example.com\r\nUpgrade: websocket\r\nConnection: Upgrade\r\nSec-WebSocket-Key: dGhlIHNhbXBsZSBub25jZQ==\r\nSec-WebSocket-Version: 13\r\n\r\n"
      "dGhlIHNhbXBsZSBub25jZQ==" (by decide)).2⟩

/-- Claim C8: the frame written by `broadcast` is the byte `0x81`, the
length encoding exactly as the spec states it (one byte when `len ≤ 125`;
`126` plus 16-bit big-endian when `len ≤ 65535`; else `127` plus 64-bit
big-endian), then the payload; a 130-byte payload yields exactly
`0x81 0x7E 0x00 0x82` followed by the payload. -/
theorem C8_frame_encoding (message payload : List Nat)
    (hlen : payload.length = 130) :
    createFrame message = 0x81 :: specLenEncoding message.length ++ message ∧
    createFrame payload = 0x81 :: 0x7E :: 0x00 :: 0x82 :: payload := by
  constructor
  · by_cases h1 : message.length ≤ 125
    · simp [createFrame, specLenEncoding, h1]
    · by_cases h2 : message.length ≤ 65535
      · have hr : List.range 2 = [0, 1] := by decide
        simp [createFrame, specLenEncoding, beBytes, h1, h2, hr]
      · have hr : List.range 8 = [0, 1, 2, 3, 4, 5, 6, 7] := by decide
        simp [createFrame, specLenEncoding, beBytes, h1, h2, hr]
  · have e1 : ((130 : Nat) >>> 8) &&& 0xFF = 0 := by decide
    have e2 : (130 : Nat) &&& 0xFF = 130 := by decide
    simp [createFrame, hlen, e1, e2]

/-- Witness for C8 on a concrete 130-byte payload. -/
theorem C8_witness :
    createFrame (List.replicate 130 65) =
      0x81 :: 0x7E :: 0x00 :: 0x82 :: List.replicate 130 65 :=
  (C8_frame_encoding [] (List.replicate 130 65) (by simp)).2

theorem ladderOrders_cons (p : ℚ) (q : OrderQueue) (rest : Ladder) :
    ladderOrders ((p, q) :: rest) = q ++ ladderOrders rest := by
  simp [ladderOrders]

theorem matchQueueBid_trades (b : Order) (q : OrderQueue) :
    (matchQueueBid b q).trades.map Trade.askOrderId =
      (q.map Order.id).take (matchQueueBid b q).trades.length ∧
    (matchQueueBid b q).trades.map Trade.price =
      (q.map Order.price).take (matchQueueBid b q).trades.length ∧
    (∀ t ∈ (matchQueueBid b q).trades, t.bidOrderId = b.id) ∧
    ((matchQueueBid b q).queue.isEmpty = true →
      (matchQueueBid b q).trades.length = q.length) := by
  induction q generalizing b with
  | nil => simp [matchQueueBid]
  | cons a rest ih =>
    rw [matchQueueBid]
    by_cases hf : b.isFilled
    · simp [hf]
    · simp only [hf, Bool.false_eq_true, if_false]
      split
      · obtain ⟨h1, h2, h3, h4⟩ :=
          ih { b with quantity := b.quantity - min b.quantity a.quantity }
        refine ⟨by simpa using h1, by simpa using h2, ?_, ?_⟩
        · intro t ht
          rcases List.mem_cons.mp ht with h | h
          · subst h; rfl
          · exact h3 t h
        · intro hq
          simp only [List.length_cons]
          simpa using h4 (by simpa using hq)
      · refine ⟨by simp, by simp, ?_, by simp⟩
        intro t ht
        simp only [List.mem_singleton] at ht
        subst ht; rfl

theorem matchQueueAsk_trades (a : Order) (q : OrderQueue) :
    (matchQueueAsk a q).trades.map Trade.bidOrderId =
      (q.map Order.id).take (matchQueueAsk a q).trades.length ∧
    (matchQueueAsk a q).trades.map Trade.price =
      (q.map Order.price).take (matchQueueAsk a q).trades.length ∧
    (∀ t ∈ (matchQueueAsk a q).trades, t.askOrderId = a.id) ∧
    ((matchQueueAsk a q).queue.isEmpty = true →
      (matchQueueAsk a q).trades.length = q.length) := by
  induction q generalizing a with
  | nil => simp [matchQueueAsk]
  | cons b rest ih =>
    rw [matchQueueAsk]
    by_cases hf : a.isFilled
    · simp [hf]
    · simp only [hf, Bool.false_eq_true, if_false]
      split
      · obtain ⟨h1, h2, h3, h4⟩ :=
          ih { a with quantity := a.quantity - min a.quantity b.quantity }
        refine ⟨by simpa using h1, by simpa using h2, ?_, ?_⟩
        · intro t ht
          rcases List.mem_cons.mp ht with h | h
          · subst h; rfl
          · exact h3 t h
        · intro hq
          simp only [List.length_cons]
          simpa using h4 (by simpa using hq)
      · refine ⟨by simp, by simp, ?_, by simp⟩
        intro t ht
        simp only [List.mem_singleton] at ht
        subst ht; rfl

theorem matchBidLevels_trades (b : Order) (l : Ladder) :
    (matchBidLevels b l).trades.map Trade.askOrderId =
      ((ladderOrders l).map Order.id).take (matchBidLevels b l).trades.length ∧
    (matchBidLevels b l).trades.map Trade.price =
      ((ladderOrders l).map Order.price).take
        (matchBidLevels b l).trades.length ∧
    (∀ t ∈ (matchBidLevels b l).trades, t.bidOrderId = b.id) := by
  induction l generalizing b with
  | nil => simp [matchBidLevels, ladderOrders]
  | cons pq rest ih =>
    obtain ⟨p, q⟩ := pq
    rw [matchBidLevels]
    by_cases hf : b.isFilled
    · simp [hf]
    · by_cases hp : b.price < p
      · simp [hf, hp]
      · simp only [hf, hp, Bool.false_eq_true, if_false]
        obtain ⟨q1, q2, q3, q4⟩ := matchQueueBid_trades b q
        obtain ⟨g1, g2, g3, g4⟩ := matchQueueBid_agg b q
        split
        next hempty =>
          obtain ⟨i1, i2, i3⟩ := ih (matchQueueBid b q).agg
          have hlen : (matchQueueBid b q).trades.length = q.length := q4 hempty
          refine ⟨?_, ?_, ?_⟩
          · simp only [List.map_append, ladderOrders_cons, List.length_append]
            rw [q1, i1, hlen]
            conv_rhs =>
              rw [show List.length q = (List.map Order.id q).length from
                (List.length_map _ _).symm]
            rw [List.take_append]
            simp
          · simp only [List.map_append, ladderOrders_cons, List.length_append]
            rw [q2, i2, hlen]
            conv_rhs =>
              rw [show List.length q = (List.map Order.price q).length from
                (List.length_map _ _).symm]
            rw [List.take_append]
            simp
          · intro t ht
            rcases List.mem_append.mp ht with h | h
            · exact q3 t h
            · exact (i3 t h).trans g1
        next hne =>
          have hle : (matchQueueBid b q).trades.length ≤ q.length := by
            have hc := congrArg List.length q1
            simp at hc
            omega
          refine ⟨?_, ?_, q3⟩
          · simp only [List.map_append, ladderOrders_cons]
            rw [List.take_append_of_le_length (by simpa using hle), q1]
          · simp only [List.map_append, ladderOrders_cons]
            rw [List.take_append_of_le_length (by simpa using hle), q2]

theorem matchAskLevels_trades (a : Order) (l : Ladder) :
    (matchAskLevels a l).trades.map Trade.bidOrderId =
      ((ladderOrders l).map Order.id).take (matchAskLevels a l).trades.length ∧
    (matchAskLevels a l).trades.map Trade.price =
      ((ladderOrders l).map Order.price).take
        (matchAskLevels a l).trades.length ∧
    (∀ t ∈ (matchAskLevels a l).trades, t.askOrderId = a.id) := by
  induction l generalizing a with
  | nil => simp [matchAskLevels, ladderOrders]
  | cons pq rest ih =>
    obtain ⟨p, q⟩ := pq
    rw [matchAskLevels]
    by_cases hf : a.isFilled
    · simp [hf]
    · by_cases hp : p < a.price
      · simp [hf, hp]
      · simp only [hf, hp, Bool.false_eq_true, if_false]
        obtain ⟨q1, q2, q3, q4⟩ := matchQueueAsk_trades a q
        obtain ⟨g1, g2, g3, g4⟩ := matchQueueAsk_agg a q
        split
        next hempty =>
          obtain ⟨i1, i2, i3⟩ := ih (matchQueueAsk a q).agg
          have hlen : (matchQueueAsk a q).trades.length = q.length := q4 hempty
          refine ⟨?_, ?_, ?_⟩
          · simp only [List.map_append, ladderOrders_cons, List.length_append]
            rw [q1, i1, hlen]
            conv_rhs =>
              rw [show List.length q = (List.map Order.id q).length from
                (List.length_map _ _).symm]
            rw [List.take_append]
            simp
          · simp only [List.map_append, ladderOrders_cons, List.length_append]
            rw [q2, i2, hlen]
            conv_rhs =>
              rw [show List.length q = (List.map Order.price q).length from
                (List.length_map _ _).symm]
            rw [List.take_append]
            simp
          · intro t ht
            rcases List.mem_append.mp ht with h | h
            · exact q3 t h
            · exact (i3 t h).trans g1
        next hne =>
          have hle : (matchQueueAsk a q).trades.length ≤ q.length := by
            have hc := congrArg List.length q1
            simp at hc
            omega
          refine ⟨?_, ?_, q3⟩
          · simp only [List.map_append, ladderOrders_cons]
            rw [List.take_append_of_le_length (by simpa using hle), q1]
          · simp only [List.map_append, ladderOrders_cons]
            rw [List.take_append_of_le_length (by simpa using hle), q2]

/-- Claim C2: within one `addOrder` call the emitted trades (callback
invocations, in list order = execution order, all delivered before the call
returns) follow price-time priority: the makers matched are exactly the
first `k` resting orders of the opposite ladder in its iteration order —
best maker price level first, FIFO queue order within a level — and every
trade names the incoming order as its own-side participant. -/
theorem C2_price_time_priority (bk : OrderBook) (p q : ℚ) :
    ((bk.addOrder Side.bid p q).trades.map Trade.askOrderId =
        ((ladderOrders bk.asks).map Order.id).take
          (bk.addOrder Side.bid p q).trades.length ∧
      (bk.addOrder Side.bid p q).trades.map Trade.price =
        ((ladderOrders bk.asks).map Order.price).take
          (bk.addOrder Side.bid p q).trades.length ∧
      ∀ t ∈ (bk.addOrder Side.bid p q).trades,
        t.bidOrderId = bk.nextOrderId) ∧
    ((bk.addOrder Side.ask p q).trades.map Trade.bidOrderId =
        ((ladderOrders bk.bids).map Order.id).take
          (bk.addOrder Side.ask p q).trades.length ∧
      (bk.addOrder Side.ask p q).trades.map Trade.price =
        ((ladderOrders bk.bids).map Order.price).take
          (bk.addOrder Side.ask p q).trades.length ∧
      ∀ t ∈ (bk.addOrder Side.ask p q).trades,
        t.askOrderId = bk.nextOrderId) := by
  constructor
  · have h := matchBidLevels_trades (Order.mk bk.nextOrderId Side.bid p q) bk.asks
    have htr : (bk.addOrder Side.bid p q).trades =
        (matchBidLevels (Order.mk bk.nextOrderId Side.bid p q) bk.asks).trades := by
      simp only [OrderBook.addOrder]
      split <;> rfl
    rw [htr]
    exact h
  · have h := matchAskLevels_trades (Order.mk bk.nextOrderId Side.ask p q) bk.bids
    have htr : (bk.addOrder Side.ask p q).trades =
        (matchAskLevels (Order.mk bk.nextOrderId Side.ask p q) bk.bids).trades := by
      simp only [OrderBook.addOrder]
      split <;> rfl
    rw [htr]
    exact h

theorem addOrder_bid_eq (bk : OrderBook) (p q : ℚ) :
    bk.addOrder Side.bid p q =
      (if (matchBidLevels (Order.mk bk.nextOrderId Side.bid p q) bk.asks).agg.isFilled then
        AddResult.mk 0
          (OrderBook.mk bk.bids
            (matchBidLevels (Order.mk bk.nextOrderId Side.bid p q) bk.asks).ladder
            (eraseIds bk.orderIndex
              (matchBidLevels (Order.mk bk.nextOrderId Side.bid p q) bk.asks).removed)
            (bk.nextOrderId + 1)
            (bk.tradeCount +
              (matchBidLevels (Order.mk bk.nextOrderId Side.bid p q) bk.asks).trades.length)
            (lastTradePrice
              (matchBidLevels (Order.mk bk.nextOrderId Side.bid p q) bk.asks).trades
              bk.lastPrice))
          (matchBidLevels (Order.mk bk.nextOrderId Side.bid p q) bk.asks).trades
      else
        AddResult.mk
          (matchBidLevels (Order.mk bk.nextOrderId Side.bid p q) bk.asks).agg.id
          ((OrderBook.mk bk.bids
            (matchBidLevels (Order.mk bk.nextOrderId Side.bid p q) bk.asks).ladder
            (eraseIds bk.orderIndex
              (matchBidLevels (Order.mk bk.nextOrderId Side.bid p q) bk.asks).removed)
            (bk.nextOrderId + 1)
            (bk.tradeCount +
              (matchBidLevels (Order.mk bk.nextOrderId Side.bid p q) bk.asks).trades.length)
            (lastTradePrice
              (matchBidLevels (Order.mk bk.nextOrderId Side.bid p q) bk.asks).trades
              bk.lastPrice)).addToBook
            (matchBidLevels (Order.mk bk.nextOrderId Side.bid p q) bk.asks).agg)
          (matchBidLevels (Order.mk bk.nextOrderId Side.bid p q) bk.asks).trades) := rfl

theorem addOrder_ask_eq (bk : OrderBook) (p q : ℚ) :
    bk.addOrder Side.ask p q =
      (if (matchAskLevels (Order.mk bk.nextOrderId Side.ask p q) bk.bids).agg.isFilled then
        AddResult.mk 0
          (OrderBook.mk
            (matchAskLevels (Order.mk bk.nextOrderId Side.ask p q) bk.bids).ladder
            bk.asks
            (eraseIds bk.orderIndex
              (matchAskLevels (Order.mk bk.nextOrderId Side.ask p q) bk.bids).removed)
            (bk.nextOrderId + 1)
            (bk.tradeCount +
              (matchAskLevels (Order.mk bk.nextOrderId Side.ask p q) bk.bids).trades.length)
            (lastTradePrice
              (matchAskLevels (Order.mk bk.nextOrderId Side.ask p q) bk.bids).trades
              bk.lastPrice))
          (matchAskLevels (Order.mk bk.nextOrderId Side.ask p q) bk.bids).trades
      else
        AddResult.mk
          (matchAskLevels (Order.mk bk.nextOrderId Side.ask p q) bk.bids).agg.id
          ((OrderBook.mk
            (matchAskLevels (Order.mk bk.nextOrderId Side.ask p q) bk.bids).ladder
            bk.asks
            (eraseIds bk.orderIndex
              (matchAskLevels (Order.mk bk.nextOrderId Side.ask p q) bk.bids).removed)
            (bk.nextOrderId + 1)
            (bk.tradeCount +
              (matchAskLevels (Order.mk bk.nextOrderId Side.ask p q) bk.bids).trades.length)
            (lastTradePrice
              (matchAskLevels (Order.mk bk.nextOrderId Side.ask p q) bk.bids).trades
              bk.lastPrice)).addToBook
            (matchAskLevels (Order.mk bk.nextOrderId Side.ask p q) bk.bids).agg)
          (matchAskLevels (Order.mk bk.nextOrderId Side.ask p q) bk.bids).trades) := rfl

theorem levelQueue_addToLadderAsc (o : Order) (l : Ladder) :
    ∃ q0, levelQueue (addToLadderAsc o l) o.price = some (q0 ++ [o]) := by
  induction l with
  | nil => exact ⟨[], by simp [addToLadderAsc, levelQueue, List.find?]⟩
  | cons pq rest ih =>
    obtain ⟨p, qq⟩ := pq
    rw [addToLadderAsc]
    by_cases h1 : o.price < p
    · exact ⟨[], by simp [h1, levelQueue, List.find?]⟩
    · by_cases h2 : o.price = p
      · refine ⟨qq, ?_⟩
        simp only [h1, h2, if_false, if_true, if_pos rfl]
        simp [levelQueue, List.find?, h2.symm]
      · obtain ⟨q0, hq0⟩ := ih
        refine ⟨q0, ?_⟩
        simp only [h1, h2, if_false]
        have hbe : (p == o.price) = false := by
          simpa [beq_eq_false_iff_ne] using Ne.symm h2
        simpa [levelQueue, List.find?, hbe] using hq0

theorem levelQueue_addToLadderDesc (o : Order) (l : Ladder) :
    ∃ q0, levelQueue (addToLadderDesc o l) o.price = some (q0 ++ [o]) := by
  induction l with
  | nil => exact ⟨[], by simp [addToLadderDesc, levelQueue, List.find?]⟩
  | cons pq rest ih =>
    obtain ⟨p, qq⟩ := pq
    rw [addToLadderDesc]
    by_cases h1 : p < o.price
    · exact ⟨[], by simp [h1, levelQueue, List.find?]⟩
    · by_cases h2 : o.price = p
      · refine ⟨qq, ?_⟩
        simp only [h1, h2, if_false, if_true, if_pos rfl]
        simp [levelQueue, List.find?, h2.symm]
      · obtain ⟨q0, hq0⟩ := ih
        refine ⟨q0, ?_⟩
        simp only [h1, h2, if_false]
        have hbe : (p == o.price) = false := by
          simpa [beq_eq_false_iff_ne] using Ne.symm h2
        simpa [levelQueue, List.find?, hbe] using hq0

/-- Claim C4: `addOrder` returns 0 exactly when the incoming quantity is
fully consumed by matching (the residual `q − Σ traded` is ≤ 0) and the
order never rests; otherwise the residual order is appended at the tail of
the FIFO queue of its price level on its own side (level created if
absent), its location is recorded in the id index, and its freshly
allocated non-zero id (`nextOrderId`) is returned. -/
theorem C4_return_and_rest (bk : OrderBook) (side : Side) (p q : ℚ)
    (hid : 1 ≤ bk.nextOrderId) :
    ((bk.addOrder side p q).id = 0 ↔
      q - tradesQty (bk.addOrder side p q).trades ≤ 0) ∧
    (0 < q - tradesQty (bk.addOrder side p q).trades →
      (bk.addOrder side p q).id = bk.nextOrderId ∧
      (bk.addOrder side p q).id ≠ 0 ∧
      ((bk.addOrder side p q).id, OrderLocation.mk side p) ∈
        (bk.addOrder side p q).book.orderIndex ∧
      ∃ q0, levelQueue ((bk.addOrder side p q).book.sideLadder side) p =
        some (q0 ++ [Order.mk bk.nextOrderId side p
          (q - tradesQty (bk.addOrder side p q).trades)])) := by
  cases side
  case bid =>
    obtain ⟨g1, g2, g3, g4⟩ :=
      matchBidLevels_agg (Order.mk bk.nextOrderId Side.bid p q) bk.asks
    dsimp only at g1 g2 g3 g4
    have hres :
        (matchBidLevels (Order.mk bk.nextOrderId Side.bid p q) bk.asks).agg.quantity =
          q - tradesQty
            (matchBidLevels (Order.mk bk.nextOrderId Side.bid p q) bk.asks).trades := by
      simpa [tradesQty] using g4
    by_cases hf :
        (matchBidLevels (Order.mk bk.nextOrderId Side.bid p q) bk.asks).agg.isFilled
    · have hle :
          q - tradesQty
            (matchBidLevels (Order.mk bk.nextOrderId Side.bid p q) bk.asks).trades ≤ 0 := by
        rw [← hres]
        exact (Order.isFilled_iff _).mp hf
      constructor
      · rw [addOrder_bid_eq]
        simp [hf, hle]
      · intro hpos
        rw [addOrder_bid_eq] at hpos
        simp [hf] at hpos
        linarith
    · have hq0 : ¬ (matchBidLevels
          (Order.mk bk.nextOrderId Side.bid p q) bk.asks).agg.quantity ≤ 0 := by
        intro hc
        exact hf ((Order.isFilled_iff _).mpr hc)
      have hpos :
          0 < q - tradesQty
            (matchBidLevels (Order.mk bk.nextOrderId Side.bid p q) bk.asks).trades := by
        rw [← hres]
        linarith
      have hagg :
          (matchBidLevels (Order.mk bk.nextOrderId Side.bid p q) bk.asks).agg =
            Order.mk bk.nextOrderId Side.bid p
              (q - tradesQty
                (matchBidLevels (Order.mk bk.nextOrderId Side.bid p q) bk.asks).trades) := by
        cases hA : (matchBidLevels (Order.mk bk.nextOrderId Side.bid p q) bk.asks).agg with
        | mk a b c d =>
          rw [hA] at g1 g2 g3 hres
          dsimp only at g1 g2 g3 hres
          rw [g1, g2, g3, hres]
      constructor
      · rw [addOrder_bid_eq]
        simp only [hf, Bool.false_eq_true, if_false]
        constructor
        · intro h
          rw [g1] at h
          exact absurd h (by omega)
        · intro h
          linarith
      · intro _
        rw [addOrder_bid_eq]
        simp only [hf, Bool.false_eq_true, if_false]
        refine ⟨g1, by rw [g1]; omega, ?_, ?_⟩
        · rw [hagg]
          simp [OrderBook.addToBook]
        · rw [hagg]
          simp only [OrderBook.addToBook, OrderBook.sideLadder]
          exact levelQueue_addToLadderDesc _ _
  case ask =>
    obtain ⟨g1, g2, g3, g4⟩ :=
      matchAskLevels_agg (Order.mk bk.nextOrderId Side.ask p q) bk.bids
    dsimp only at g1 g2 g3 g4
    have hres :
        (matchAskLevels (Order.mk bk.nextOrderId Side.ask p q) bk.bids).agg.quantity =
          q - tradesQty
            (matchAskLevels (Order.mk bk.nextOrderId Side.ask p q) bk.bids).trades := by
      simpa [tradesQty] using g4
    by_cases hf :
        (matchAskLevels (Order.mk bk.nextOrderId Side.ask p q) bk.bids).agg.isFilled
    · have hle :
          q - tradesQty
            (matchAskLevels (Order.mk bk.nextOrderId Side.ask p q) bk.bids).trades ≤ 0 := by
        rw [← hres]
        exact (Order.isFilled_iff _).mp hf
      constructor
      · rw [addOrder_ask_eq]
        simp [hf, hle]
      · intro hpos
        rw [addOrder_ask_eq] at hpos
        simp [hf] at hpos
        linarith
    · have hq0 : ¬ (matchAskLevels
          (Order.mk bk.nextOrderId Side.ask p q) bk.bids).agg.quantity ≤ 0 := by
        intro hc
        exact hf ((Order.isFilled_iff _).mpr hc)
      have hpos :
          0 < q - tradesQty
            (matchAskLevels (Order.mk bk.nextOrderId Side.ask p q) bk.bids).trades := by
        rw [← hres]
        linarith
      have hagg :
          (matchAskLevels (Order.mk bk.nextOrderId Side.ask p q) bk.bids).agg =
            Order.mk bk.nextOrderId Side.ask p
              (q - tradesQty
                (matchAskLevels (Order.mk bk.nextOrderId Side.ask p q) bk.bids).trades) := by
        cases hA : (matchAskLevels (Order.mk bk.nextOrderId Side.ask p q) bk.bids).agg with
        | mk a b c d =>
          rw [hA] at g1 g2 g3 hres
          dsimp only at g1 g2 g3 hres
          rw [g1, g2, g3, hres]
      constructor
      · rw [addOrder_ask_eq]
        simp only [hf, Bool.false_eq_true, if_false]
        constructor
        · intro h
          rw [g1] at h
          exact absurd h (by omega)
        · intro h
          linarith
      · intro _
        rw [addOrder_ask_eq]
        simp only [hf, Bool.false_eq_true, if_false]
        refine ⟨g1, by rw [g1]; omega, ?_, ?_⟩
        · rw [hagg]
          simp [OrderBook.addToBook]
        · rw [hagg]
          simp only [OrderBook.addToBook, OrderBook.sideLadder]
          exact levelQueue_addToLadderAsc _ _

/-- Witness for C4 at concrete inputs: a resting add (id 1 returned, order at
the tail of its level) and a fully filled add returning 0. -/
theorem C4_witness :
    ((emptyBook.addOrder Side.bid 100 2).id = 1 ∧
      ∃ q0, levelQueue
          ((emptyBook.addOrder Side.bid 100 2).book.sideLadder Side.bid) 100 =
        some (q0 ++ [Order.mk 1 Side.bid 100
          (2 - tradesQty (emptyBook.addOrder Side.bid 100 2).trades)])) ∧
    (((emptyBook.addOrder Side.bid 100 2).book.addOrder Side.ask 100 2).id = 0 ↔
      2 - tradesQty
        ((emptyBook.addOrder Side.bid 100 2).book.addOrder Side.ask 100 2).trades ≤ 0) := by
  have htr : (emptyBook.addOrder Side.bid 100 2).trades = [] := by decide
  have hpos : 0 < 2 - tradesQty (emptyBook.addOrder Side.bid 100 2).trades := by
    rw [htr]
    norm_num [tradesQty]
  exact ⟨⟨((C4_return_and_rest emptyBook Side.bid 100 2 (by decide)).2 hpos).1,
      ((C4_return_and_rest emptyBook Side.bid 100 2 (by decide)).2 hpos).2.2.2⟩,
    (C4_return_and_rest (emptyBook.addOrder Side.bid 100 2).book Side.ask 100 2
      (by decide)).1⟩

theorem addOrder_trades_bid (bk : OrderBook) (p q : ℚ) :
    (bk.addOrder Side.bid p q).trades =
      (matchBidLevels (Order.mk bk.nextOrderId Side.bid p q) bk.asks).trades := by
  rw [addOrder_bid_eq]
  split <;> rfl

theorem addOrder_trades_ask (bk : OrderBook) (p q : ℚ) :
    (bk.addOrder Side.ask p q).trades =
      (matchAskLevels (Order.mk bk.nextOrderId Side.ask p q) bk.bids).trades := by
  rw [addOrder_ask_eq]
  split <;> rfl

theorem trades_maker_exists (ts : List Trade) (ms : List Order)
    (f : Trade → Nat)
    (h1 : ts.map f = (ms.map Order.id).take ts.length)
    (h2 : ts.map Trade.price = (ms.map Order.price).take ts.length) :
    ∀ t ∈ ts, ∃ m ∈ ms, m.id = f t ∧ t.price = m.price := by
  intro t ht
  obtain ⟨i, hi, hti⟩ := List.mem_iff_getElem.mp ht
  have hlen : ts.length ≤ ms.length := by
    have hc := congrArg List.length h1
    simp at hc
    omega
  have him : i < ms.length := lt_of_lt_of_le hi hlen
  have hb1 : i < (ts.map f).length := by simpa using hi
  have hb2 : i < (ts.map Trade.price).length := by simpa using hi
  have e1 := List.getElem_of_eq h1 hb1
  have e2 := List.getElem_of_eq h2 hb2
  simp only [List.getElem_map, List.getElem_take] at e1 e2
  rw [hti] at e1 e2
  exact ⟨ms[i], List.getElem_mem him, e1.symm, e2⟩

theorem matchQueueBid_price_eq (b : Order) (qq : OrderQueue) (key : ℚ)
    (hk : ∀ o ∈ qq, o.price = key) :
    ∀ t ∈ (matchQueueBid b qq).trades, t.price = key := by
  induction qq generalizing b with
  | nil => simp [matchQueueBid]
  | cons a rest ih =>
    rw [matchQueueBid]
    by_cases hf : b.isFilled
    · simp [hf]
    · simp only [hf, Bool.false_eq_true, if_false]
      split
      · intro t ht
        rcases List.mem_cons.mp ht with h | h
        · subst h
          exact hk a (List.mem_cons_self a rest)
        · exact ih _ (fun o ho => hk o (List.mem_cons_of_mem a ho)) t h
      · intro t ht
        simp only [List.mem_singleton] at ht
        subst ht
        exact hk a (List.mem_cons_self a rest)

theorem matchQueueAsk_price_eq (a : Order) (qq : OrderQueue) (key : ℚ)
    (hk : ∀ o ∈ qq, o.price = key) :
    ∀ t ∈ (matchQueueAsk a qq).trades, t.price = key := by
  induction qq generalizing a with
  | nil => simp [matchQueueAsk]
  | cons b rest ih =>
    rw [matchQueueAsk]
    by_cases hf : a.isFilled
    · simp [hf]
    · simp only [hf, Bool.false_eq_true, if_false]
      split
      · intro t ht
        rcases List.mem_cons.mp ht with h | h
        · subst h
          exact hk b (List.mem_cons_self b rest)
        · exact ih _ (fun o ho => hk o (List.mem_cons_of_mem b ho)) t h
      · intro t ht
        simp only [List.mem_singleton] at ht
        subst ht
        exact hk b (List.mem_cons_self b rest)

theorem matchBidLevels_price_le (b : Order) (l : Ladder)
    (hk : ladderKeysOk l) :
    ∀ t ∈ (matchBidLevels b l).trades, t.price ≤ b.price := by
  induction l generalizing b with
  | nil => simp [matchBidLevels]
  | cons pq rest ih =>
    obtain ⟨p, q⟩ := pq
    rw [matchBidLevels]
    by_cases hf : b.isFilled
    · simp [hf]
    · by_cases hp : b.price < p
      · simp [hf, hp]
      · simp only [hf, hp, Bool.false_eq_true, if_false]
        have hkq : ∀ o ∈ q, o.price = p :=
          hk (p, q) (List.mem_cons_self _ _)
        have hkrest : ladderKeysOk rest :=
          fun e he => hk e (List.mem_cons_of_mem _ he)
        have hqp : ∀ t ∈ (matchQueueBid b q).trades, t.price ≤ b.price := by
          intro t ht
          rw [matchQueueBid_price_eq b q p hkq t ht]
          linarith
        split
        · intro t ht
          rcases List.mem_append.mp ht with h | h
          · exact hqp t h
          · have := ih (matchQueueBid b q).agg hkrest t h
            rwa [(matchQueueBid_agg b q).2.2.1] at this
        · exact hqp

theorem matchAskLevels_price_ge (a : Order) (l : Ladder)
    (hk : ladderKeysOk l) :
    ∀ t ∈ (matchAskLevels a l).trades, a.price ≤ t.price := by
  induction l generalizing a with
  | nil => simp [matchAskLevels]
  | cons pq rest ih =>
    obtain ⟨p, q⟩ := pq
    rw [matchAskLevels]
    by_cases hf : a.isFilled
    · simp [hf]
    · by_cases hp : p < a.price
      · simp [hf, hp]
      · simp only [hf, hp, Bool.false_eq_true, if_false]
        have hkq : ∀ o ∈ q, o.price = p :=
          hk (p, q) (List.mem_cons_self _ _)
        have hkrest : ladderKeysOk rest :=
          fun e he => hk e (List.mem_cons_of_mem _ he)
        have hqp : ∀ t ∈ (matchQueueAsk a q).trades, a.price ≤ t.price := by
          intro t ht
          rw [matchQueueAsk_price_eq a q p hkq t ht]
          linarith
        split
        · intro t ht
          rcases List.mem_append.mp ht with h | h
          · exact hqp t h
          · have := ih (matchQueueAsk a q).agg hkrest t h
            rwa [(matchQueueAsk_agg a q).2.2.1] at this
        · exact hqp

/-- Claim C3: every trade emitted during `addOrder` carries the resting
(maker) order's price — there is a maker on the opposite ladder before the
call whose id and price the trade names — and it respects the aggressor's
limit as an admissibility bound: for an incoming bid every trade price is
≤ the bid's limit, and for an incoming ask it is ≥ the ask's limit (so the
aggressor's price appears only when it equals the maker's). -/
theorem C3_maker_price (bk : OrderBook) (p q : ℚ)
    (hAsk : ladderKeysOk bk.asks) (hBid : ladderKeysOk bk.bids) :
    (∀ t ∈ (bk.addOrder Side.bid p q).trades,
      (∃ m ∈ ladderOrders bk.asks, m.id = t.askOrderId ∧ t.price = m.price) ∧
      t.price ≤ p) ∧
    (∀ t ∈ (bk.addOrder Side.ask p q).trades,
      (∃ m ∈ ladderOrders bk.bids, m.id = t.bidOrderId ∧ t.price = m.price) ∧
      p ≤ t.price) := by
  constructor
  · intro t ht
    rw [addOrder_trades_bid] at ht
    obtain ⟨h1, h2, _⟩ :=
      matchBidLevels_trades (Order.mk bk.nextOrderId Side.bid p q) bk.asks
    exact ⟨trades_maker_exists _ _ Trade.askOrderId h1 h2 t ht,
      matchBidLevels_price_le _ _ hAsk t ht⟩
  · intro t ht
    rw [addOrder_trades_ask] at ht
    obtain ⟨h1, h2, _⟩ :=
      matchAskLevels_trades (Order.mk bk.nextOrderId Side.ask p q) bk.bids
    exact ⟨trades_maker_exists _ _ Trade.bidOrderId h1 h2 t ht,
      matchAskLevels_price_ge _ _ hBid t ht⟩

/-- Witness for C3: the single trade of a bid crossing a concrete one-level
ask book carries the maker's id and price and respects the bid's limit. -/
theorem C3_witness :
    (∃ m ∈ ladderOrders (emptyBook.addOrder Side.ask 100 1).book.asks,
        m.id = (Trade.mk 2 1 100 1).askOrderId ∧
        (Trade.mk 2 1 100 1).price = m.price) ∧
    (Trade.mk 2 1 100 1).price ≤ 101 := by
  have htr : ((emptyBook.addOrder Side.ask 100 1).book.addOrder
      Side.bid 101 3).trades = [Trade.mk 2 1 100 1] := by
    norm_num [OrderBook.addOrder, matchBidLevels, matchAskLevels,
      matchQueueBid, matchQueueAsk, Order.isFilled, OrderBook.addToBook,
      addToLadderAsc, addToLadderDesc, emptyBook, eraseIds, lastTradePrice]
  have hmem : Trade.mk 2 1 100 1 ∈
      ((emptyBook.addOrder Side.ask 100 1).book.addOrder Side.bid 101 3).trades := by
    rw [htr]
    simp
  exact (C3_maker_price (emptyBook.addOrder Side.ask 100 1).book 101 3
    (by decide) (by decide)).1 (Trade.mk 2 1 100 1) hmem

theorem matchQueueBid_not_filled_queue (b : Order) (q : OrderQueue)
    (h : (matchQueueBid b q).agg.isFilled = false) :
    (matchQueueBid b q).queue = [] := by
  induction q generalizing b with
  | nil => simp [matchQueueBid]
  | cons a rest ih =>
    rw [matchQueueBid] at h ⊢
    by_cases hf : b.isFilled
    · simp [hf] at h
    · simp only [hf, Bool.false_eq_true, if_false] at h ⊢
      split at h
      · rw [if_pos (by assumption)]
        exact ih _ h
      · exfalso
        next ha2 =>
        simp only [Order.isFilled, decide_eq_true_eq] at h ha2
        rcases le_total b.quantity a.quantity with hle | hle
        · rw [min_eq_left hle] at h
          simp at h
        · rw [min_eq_right hle] at ha2
          simp at ha2

theorem matchQueueAsk_not_filled_queue (a : Order) (q : OrderQueue)
    (h : (matchQueueAsk a q).agg.isFilled = false) :
    (matchQueueAsk a q).queue = [] := by
  induction q generalizing a with
  | nil => simp [matchQueueAsk]
  | cons b rest ih =>
    rw [matchQueueAsk] at h ⊢
    by_cases hf : a.isFilled
    · simp [hf] at h
    · simp only [hf, Bool.false_eq_true, if_false] at h ⊢
      split at h
      · rw [if_pos (by assumption)]
        exact ih _ h
      · exfalso
        next hb2 =>
        simp only [Order.isFilled, decide_eq_true_eq] at h hb2
        rcases le_total a.quantity b.quantity with hle | hle
        · rw [min_eq_left hle] at h
          simp at h
        · rw [min_eq_right hle] at hb2
          simp at hb2

theorem matchBidLevels_keys_sub (b : Order) (l : Ladder) :
    ∀ k ∈ ladderKeys (matchBidLevels b l).ladder, k ∈ ladderKeys l := by
  induction l generalizing b with
  | nil => simp [matchBidLevels]
  | cons pq rest ih =>
    obtain ⟨p, q⟩ := pq
    rw [matchBidLevels]
    by_cases hf : b.isFilled
    · simp [hf]
    · by_cases hp : b.price < p
      · simp [hf, hp]
      · simp only [hf, hp, Bool.false_eq_true, if_false]
        split
        · intro k hk
          exact List.mem_cons_of_mem _ (ih (matchQueueBid b q).agg k hk)
        · intro k hk
          simpa [ladderKeys] using (by simpa [ladderKeys] using hk : k = p ∨
            k ∈ List.map Prod.fst rest)

theorem matchAskLevels_keys_sub (a : Order) (l : Ladder) :
    ∀ k ∈ ladderKeys (matchAskLevels a l).ladder, k ∈ ladderKeys l := by
  induction l generalizing a with
  | nil => simp [matchAskLevels]
  | cons pq rest ih =>
    obtain ⟨p, q⟩ := pq
    rw [matchAskLevels]
    by_cases hf : a.isFilled
    · simp [hf]
    · by_cases hp : p < a.price
      · simp [hf, hp]
      · simp only [hf, hp, Bool.false_eq_true, if_false]
        split
        · intro k hk
          exact List.mem_cons_of_mem _ (ih (matchQueueAsk a q).agg k hk)
        · intro k hk
          simpa [ladderKeys] using (by simpa [ladderKeys] using hk : k = p ∨
            k ∈ List.map Prod.fst rest)

theorem matchBidLevels_keys_pairwise (R : ℚ → ℚ → Prop) (b : Order) (l : Ladder)
    (h : List.Pairwise R (ladderKeys l)) :
    List.Pairwise R (ladderKeys (matchBidLevels b l).ladder) := by
  induction l generalizing b with
  | nil => simpa [matchBidLevels] using h
  | cons pq rest ih =>
    obtain ⟨p, q⟩ := pq
    rw [matchBidLevels]
    by_cases hf : b.isFilled
    · simpa [hf] using h
    · by_cases hp : b.price < p
      · simpa [hf, hp] using h
      · simp only [hf, hp, Bool.false_eq_true, if_false]
        split
        · exact ih (matchQueueBid b q).agg
            (by simpa [ladderKeys] using h.of_cons)
        · simpa [ladderKeys] using h

theorem matchAskLevels_keys_pairwise (R : ℚ → ℚ → Prop) (a : Order) (l : Ladder)
    (h : List.Pairwise R (ladderKeys l)) :
    List.Pairwise R (ladderKeys (matchAskLevels a l).ladder) := by
  induction l generalizing a with
  | nil => simpa [matchAskLevels] using h
  | cons pq rest ih =>
    obtain ⟨p, q⟩ := pq
    rw [matchAskLevels]
    by_cases hf : a.isFilled
    · simpa [hf] using h
    · by_cases hp : p < a.price
      · simpa [hf, hp] using h
      · simp only [hf, hp, Bool.false_eq_true, if_false]
        split
        · exact ih (matchQueueAsk a q).agg
            (by simpa [ladderKeys] using h.of_cons)
        · simpa [ladderKeys] using h

theorem matchBidLevels_rest_lt (b : Order) (l : Ladder)
    (hsort : List.Pairwise (fun a c => a < c) (ladderKeys l))
    (hnf : (matchBidLevels b l).agg.isFilled = false) :
    ∀ k ∈ ladderKeys (matchBidLevels b l).ladder, b.price < k := by
  induction l generalizing b with
  | nil => simp [matchBidLevels, ladderKeys]
  | cons pq rest ih =>
    obtain ⟨p, q⟩ := pq
    rw [matchBidLevels] at hnf ⊢
    by_cases hf : b.isFilled
    · simp only [if_pos hf] at hnf
      simp [hf] at hnf
    · by_cases hp : b.price < p
      · simp only [hf, hp, Bool.false_eq_true, if_false, if_true] at hnf ⊢
        intro k hk
        simp only [ladderKeys, List.map_cons, List.mem_cons] at hk
        rcases hk with h | h
        · exact h ▸ hp
        · exact lt_trans hp ((List.pairwise_cons.mp hsort).1 k h)
      · simp only [hf, hp, Bool.false_eq_true, if_false] at hnf ⊢
        split at hnf
        · rw [if_pos (by assumption)]
          have hp3 := ih (matchQueueBid b q).agg
            (by simpa [ladderKeys] using hsort.of_cons) hnf
          intro k hk
          have := hp3 k hk
          rwa [(matchQueueBid_agg b q).2.2.1] at this
        · exfalso
          next hne =>
          have hq := matchQueueBid_not_filled_queue b q hnf
          rw [hq] at hne
          simp at hne

theorem matchAskLevels_rest_gt (a : Order) (l : Ladder)
    (hsort : List.Pairwise (fun x y => y < x) (ladderKeys l))
    (hnf : (matchAskLevels a l).agg.isFilled = false) :
    ∀ k ∈ ladderKeys (matchAskLevels a l).ladder, k < a.price := by
  induction l generalizing a with
  | nil => simp [matchAskLevels, ladderKeys]
  | cons pq rest ih =>
    obtain ⟨p, q⟩ := pq
    rw [matchAskLevels] at hnf ⊢
    by_cases hf : a.isFilled
    · simp only [if_pos hf] at hnf
      simp [hf] at hnf
    · by_cases hp : p < a.price
      · simp only [hf, hp, Bool.false_eq_true, if_false, if_true] at hnf ⊢
        intro k hk
        simp only [ladderKeys, List.map_cons, List.mem_cons] at hk
        rcases hk with h | h
        · exact h ▸ hp
        · exact lt_trans ((List.pairwise_cons.mp hsort).1 k h) hp
      · simp only [hf, hp, Bool.false_eq_true, if_false] at hnf ⊢
        split at hnf
        · rw [if_pos (by assumption)]
          have hp3 := ih (matchQueueAsk a q).agg
            (by simpa [ladderKeys] using hsort.of_cons) hnf
          intro k hk
          have := hp3 k hk
          rwa [(matchQueueAsk_agg a q).2.2.1] at this
        · exfalso
          next hne =>
          have hq := matchQueueAsk_not_filled_queue a q hnf
          rw [hq] at hne
          simp at hne

theorem ladderKeys_cons (p : ℚ) (q : OrderQueue) (rest : Ladder) :
    ladderKeys ((p, q) :: rest) = p :: ladderKeys rest := rfl

theorem addToLadderAsc_keys_mem (o : Order) (l : Ladder) :
    ∀ k ∈ ladderKeys (addToLadderAsc o l), k = o.price ∨ k ∈ ladderKeys l := by
  induction l with
  | nil => simp [addToLadderAsc, ladderKeys]
  | cons pq rest ih =>
    obtain ⟨p, q⟩ := pq
    rw [addToLadderAsc]
    by_cases h1 : o.price < p
    · rw [if_pos h1]
      intro k hk
      rw [ladderKeys_cons, List.mem_cons] at hk
      rcases hk with h | h
      · exact Or.inl h
      · exact Or.inr h
    · by_cases h2 : o.price = p
      · rw [if_neg h1, if_pos h2]
        intro k hk
        rw [ladderKeys_cons, List.mem_cons] at hk
        rw [ladderKeys_cons, List.mem_cons]
        tauto
      · rw [if_neg h1, if_neg h2]
        intro k hk
        rw [ladderKeys_cons, List.mem_cons] at hk
        rw [ladderKeys_cons, List.mem_cons]
        rcases hk with h | h
        · tauto
        · rcases ih k h with h3 | h3 <;> tauto

theorem addToLadderDesc_keys_mem (o : Order) (l : Ladder) :
    ∀ k ∈ ladderKeys (addToLadderDesc o l), k = o.price ∨ k ∈ ladderKeys l := by
  induction l with
  | nil => simp [addToLadderDesc, ladderKeys]
  | cons pq rest ih =>
    obtain ⟨p, q⟩ := pq
    rw [addToLadderDesc]
    by_cases h1 : p < o.price
    · rw [if_pos h1]
      intro k hk
      rw [ladderKeys_cons, List.mem_cons] at hk
      rcases hk with h | h
      · exact Or.inl h
      · exact Or.inr h
    · by_cases h2 : o.price = p
      · rw [if_neg h1, if_pos h2]
        intro k hk
        rw [ladderKeys_cons, List.mem_cons] at hk
        rw [ladderKeys_cons, List.mem_cons]
        tauto
      · rw [if_neg h1, if_neg h2]
        intro k hk
        rw [ladderKeys_cons, List.mem_cons] at hk
        rw [ladderKeys_cons, List.mem_cons]
        rcases hk with h | h
        · tauto
        · rcases ih k h with h3 | h3 <;> tauto

theorem addToLadderAsc_keys_pairwise (o : Order) (l : Ladder)
    (h : List.Pairwise (fun a c => a < c) (ladderKeys l)) :
    List.Pairwise (fun a c => a < c) (ladderKeys (addToLadderAsc o l)) := by
  induction l with
  | nil => simp [addToLadderAsc, ladderKeys]
  | cons pq rest ih =>
    obtain ⟨p, q⟩ := pq
    rw [ladderKeys_cons] at h
    obtain ⟨hhead, htail⟩ := List.pairwise_cons.mp h
    rw [addToLadderAsc]
    by_cases h1 : o.price < p
    · rw [if_pos h1, ladderKeys_cons, ladderKeys_cons]
      refine List.pairwise_cons.mpr ⟨?_, List.pairwise_cons.mpr ⟨hhead, htail⟩⟩
      intro k hk
      rw [List.mem_cons] at hk
      rcases hk with hh | hh
      · exact hh ▸ h1
      · exact lt_trans h1 (hhead k hh)
    · by_cases h2 : o.price = p
      · rw [if_neg h1, if_pos h2, ladderKeys_cons]
        exact List.pairwise_cons.mpr ⟨hhead, htail⟩
      · rw [if_neg h1, if_neg h2, ladderKeys_cons]
        refine List.pairwise_cons.mpr ⟨?_, ih htail⟩
        intro k hk
        rcases addToLadderAsc_keys_mem o rest k hk with hh | hh
        · rw [hh]
          rcases lt_trichotomy p o.price with h3 | h3 | h3
          · exact h3
          · exact absurd h3.symm h2
          · exact absurd h3 h1
        · exact hhead k hh

theorem addToLadderDesc_keys_pairwise (o : Order) (l : Ladder)
    (h : List.Pairwise (fun a c => c < a) (ladderKeys l)) :
    List.Pairwise (fun a c => c < a) (ladderKeys (addToLadderDesc o l)) := by
  induction l with
  | nil => simp [addToLadderDesc, ladderKeys]
  | cons pq rest ih =>
    obtain ⟨p, q⟩ := pq
    rw [ladderKeys_cons] at h
    obtain ⟨hhead, htail⟩ := List.pairwise_cons.mp h
    rw [addToLadderDesc]
    by_cases h1 : p < o.price
    · rw [if_pos h1, ladderKeys_cons, ladderKeys_cons]
      refine List.pairwise_cons.mpr ⟨?_, List.pairwise_cons.mpr ⟨hhead, htail⟩⟩
      intro k hk
      rw [List.mem_cons] at hk
      rcases hk with hh | hh
      · exact hh ▸ h1
      · exact lt_trans (hhead k hh) h1
    · by_cases h2 : o.price = p
      · rw [if_neg h1, if_pos h2, ladderKeys_cons]
        exact List.pairwise_cons.mpr ⟨hhead, htail⟩
      · rw [if_neg h1, if_neg h2, ladderKeys_cons]
        refine List.pairwise_cons.mpr ⟨?_, ih htail⟩
        intro k hk
        rcases addToLadderDesc_keys_mem o rest k hk with hh | hh
        · rw [hh]
          rcases lt_trichotomy o.price p with h3 | h3 | h3
          · exact h3
          · exact absurd h3 h2
          · exact absurd h3 h1
        · exact hhead k hh

theorem removeFromLadder_keys_sub (p : ℚ) (orderId : Nat) (l : Ladder) :
    ∀ k ∈ ladderKeys (removeFromLadder p orderId l), k ∈ ladderKeys l := by
  induction l with
  | nil => simp [removeFromLadder]
  | cons pq rest ih =>
    obtain ⟨lp, q⟩ := pq
    rw [removeFromLadder]
    by_cases h1 : lp = p
    · rw [if_pos h1]
      dsimp only
      split
      · intro k hk
        rw [ladderKeys_cons, List.mem_cons]
        exact Or.inr hk
      · intro k hk
        rw [ladderKeys_cons, List.mem_cons] at hk
        rw [ladderKeys_cons, List.mem_cons]
        tauto
    · rw [if_neg h1]
      intro k hk
      rw [ladderKeys_cons, List.mem_cons] at hk
      rw [ladderKeys_cons, List.mem_cons]
      rcases hk with h | h
      · tauto
      · exact Or.inr (ih k h)

theorem removeFromLadder_keys_pairwise (R : ℚ → ℚ → Prop) (p : ℚ)
    (orderId : Nat) (l : Ladder)
    (h : List.Pairwise R (ladderKeys l)) :
    List.Pairwise R (ladderKeys (removeFromLadder p orderId l)) := by
  induction l with
  | nil => simpa [removeFromLadder] using h
  | cons pq rest ih =>
    obtain ⟨lp, q⟩ := pq
    rw [ladderKeys_cons] at h
    obtain ⟨hhead, htail⟩ := List.pairwise_cons.mp h
    rw [removeFromLadder]
    by_cases h1 : lp = p
    · rw [if_pos h1]
      dsimp only
      split
      · exact htail
      · rw [ladderKeys_cons]
        exact List.pairwise_cons.mpr ⟨hhead, htail⟩
    · rw [if_neg h1, ladderKeys_cons]
      refine List.pairwise_cons.mpr ⟨?_, ih htail⟩
      intro k hk
      exact hhead k (removeFromLadder_keys_sub p orderId rest k hk)

theorem BookOrdered_addOrder (bk : OrderBook) (side : Side) (p q : ℚ)
    (h : BookOrdered bk) : BookOrdered (bk.addOrder side p q).book := by
  obtain ⟨hb, ha, hcross⟩ := h
  cases side
  case bid =>
    rw [addOrder_bid_eq]
    by_cases hf :
        (matchBidLevels (Order.mk bk.nextOrderId Side.bid p q) bk.asks).agg.isFilled
    · rw [if_pos hf]
      refine ⟨hb, matchBidLevels_keys_pairwise _ _ _ ha, ?_⟩
      intro pb hpb pa hpa
      exact hcross pb hpb pa (matchBidLevels_keys_sub _ _ pa hpa)
    · rw [if_neg hf]
      have hagg :
          (matchBidLevels (Order.mk bk.nextOrderId Side.bid p q) bk.asks).agg.side =
            Side.bid :=
        (matchBidLevels_agg (Order.mk bk.nextOrderId Side.bid p q) bk.asks).2.1
      have haggp :
          (matchBidLevels (Order.mk bk.nextOrderId Side.bid p q) bk.asks).agg.price =
            p :=
        (matchBidLevels_agg (Order.mk bk.nextOrderId Side.bid p q) bk.asks).2.2.1
      unfold OrderBook.addToBook
      rw [hagg]
      refine ⟨?_, matchBidLevels_keys_pairwise _ _ _ ha, ?_⟩
      · exact addToLadderDesc_keys_pairwise _ _ hb
      · intro pb hpb pa hpa
        rcases addToLadderDesc_keys_mem _ _ pb hpb with hh | hh
        · rw [hh, haggp]
          have := matchBidLevels_rest_lt
            (Order.mk bk.nextOrderId Side.bid p q) bk.asks ha
            (by simpa using hf) pa hpa
          simpa using this
        · exact hcross pb hh pa (matchBidLevels_keys_sub _ _ pa hpa)
  case ask =>
    rw [addOrder_ask_eq]
    by_cases hf :
        (matchAskLevels (Order.mk bk.nextOrderId Side.ask p q) bk.bids).agg.isFilled
    · rw [if_pos hf]
      refine ⟨matchAskLevels_keys_pairwise _ _ _ hb, ha, ?_⟩
      intro pb hpb pa hpa
      exact hcross pb (matchAskLevels_keys_sub _ _ pb hpb) pa hpa
    · rw [if_neg hf]
      have hagg :
          (matchAskLevels (Order.mk bk.nextOrderId Side.ask p q) bk.bids).agg.side =
            Side.ask :=
        (matchAskLevels_agg (Order.mk bk.nextOrderId Side.ask p q) bk.bids).2.1
      have haggp :
          (matchAskLevels (Order.mk bk.nextOrderId Side.ask p q) bk.bids).agg.price =
            p :=
        (matchAskLevels_agg (Order.mk bk.nextOrderId Side.ask p q) bk.bids).2.2.1
      unfold OrderBook.addToBook
      rw [hagg]
      refine ⟨matchAskLevels_keys_pairwise _ _ _ hb, ?_, ?_⟩
      · exact addToLadderAsc_keys_pairwise _ _ ha
      · intro pb hpb pa hpa
        rcases addToLadderAsc_keys_mem _ _ pa hpa with hh | hh
        · rw [hh, haggp]
          have := matchAskLevels_rest_gt
            (Order.mk bk.nextOrderId Side.ask p q) bk.bids hb
            (by simpa using hf) pb hpb
          simpa using this
        · exact hcross pb (matchAskLevels_keys_sub _ _ pb hpb) pa hh

theorem BookOrdered_cancelOrder (bk : OrderBook) (orderId : Nat)
    (h : BookOrdered bk) : BookOrdered (bk.cancelOrder orderId).2 := by
  obtain ⟨hb, ha, hcross⟩ := h
  unfold OrderBook.cancelOrder
  cases hfind : bk.orderIndex.find? (fun e => e.1 == orderId) with
  | none => exact ⟨hb, ha, hcross⟩
  | some e =>
    cases he : e.2.side
    case bid =>
      simp only [he]
      refine ⟨removeFromLadder_keys_pairwise _ _ _ _ hb, ha, ?_⟩
      intro pb hpb pa hpa
      exact hcross pb (removeFromLadder_keys_sub _ _ _ pb hpb) pa hpa
    case ask =>
      simp only [he]
      refine ⟨hb, removeFromLadder_keys_pairwise _ _ _ _ ha, ?_⟩
      intro pb hpb pa hpa
      exact hcross pb hpb pa (removeFromLadder_keys_sub _ _ _ pa hpa)

theorem BookOrdered_reachable (bk : OrderBook) (h : Reachable bk) :
    BookOrdered bk := by
  induction h with
  | empty =>
    refine ⟨?_, ?_, ?_⟩ <;> simp [emptyBook, ladderKeys]
  | add bk side p q h ih => exact BookOrdered_addOrder bk side p q ih
  | cancel bk orderId h ih => exact BookOrdered_cancelOrder bk orderId ih

/-- Claim C5: after every sequence of `addOrder`/`cancelOrder` calls from a
fresh book, the book is uncrossed:
`bestAsk = 0 ∨ bestBid = 0 ∨ bestBid < bestAsk`. -/
theorem C5_uncrossed (bk : OrderBook) (h : Reachable bk) :
    bk.getBestAsk = 0 ∨ bk.getBestBid = 0 ∨ bk.getBestBid < bk.getBestAsk := by
  obtain ⟨_, _, hcross⟩ := BookOrdered_reachable bk h
  cases hbids : bk.bids with
  | nil =>
    right; left
    simp [OrderBook.getBestBid, hbids]
  | cons x xs =>
    cases hasks : bk.asks with
    | nil =>
      left
      simp [OrderBook.getBestAsk, hasks]
    | cons y ys =>
      right; right
      have hne : bk.bids ≠ [] := by simp [hbids]
      have h1 : bk.getBestBid ∈ ladderKeys bk.bids := by
        unfold OrderBook.getBestBid
        rw [List.getLast?_eq_getLast bk.bids hne]
        exact List.mem_map_of_mem Prod.fst (List.getLast_mem hne)
      have h2 : bk.getBestAsk ∈ ladderKeys bk.asks := by
        unfold OrderBook.getBestAsk
        rw [hasks]
        exact List.mem_map_of_mem Prod.fst (List.mem_cons_self y ys)
      exact hcross bk.getBestBid h1 bk.getBestAsk h2

/-- Witness for C5 at a concrete reachable book (a bid and an ask resting). -/
theorem C5_witness :
    ((emptyBook.addOrder Side.bid 100 1).book.addOrder Side.ask 101 2).book.getBestAsk = 0 ∨
    ((emptyBook.addOrder Side.bid 100 1).book.addOrder Side.ask 101 2).book.getBestBid = 0 ∨
    ((emptyBook.addOrder Side.bid 100 1).book.addOrder Side.ask 101 2).book.getBestBid <
      ((emptyBook.addOrder Side.bid 100 1).book.addOrder Side.ask 101 2).book.getBestAsk :=
  C5_uncrossed _
    (Reachable.add _ Side.ask 101 2 (Reachable.add _ Side.bid 100 1 Reachable.empty))

theorem ladderMass_cons (p : ℚ) (q : OrderQueue) (rest : Ladder) :
    ladderMass ((p, q) :: rest) = queueMass q + ladderMass rest := by
  simp [ladderMass]

theorem matchQueueBid_mass (b : Order) (q : OrderQueue) :
    queueMass (matchQueueBid b q).queue =
      queueMass q - tradesQty (matchQueueBid b q).trades := by
  induction q generalizing b with
  | nil => simp [matchQueueBid, queueMass, tradesQty]
  | cons a rest ih =>
    rw [matchQueueBid]
    by_cases hf : b.isFilled
    · simp [hf, tradesQty]
    · simp only [hf, Bool.false_eq_true, if_false]
      split
      · next ha2 =>
        have hfill : a.quantity = min b.quantity a.quantity := by
          simp only [Order.isFilled, decide_eq_true_eq] at ha2
          have := min_le_right b.quantity a.quantity
          linarith
        have := ih { b with quantity := b.quantity - min b.quantity a.quantity }
        simp only [queueMass, tradesQty, List.map_cons, List.sum_cons] at this ⊢
        rw [this]
        rw [← hfill]
        ring
      · simp only [queueMass, tradesQty, List.map_cons, List.sum_cons,
          List.map_nil, List.sum_nil]
        ring

theorem matchQueueAsk_mass (a : Order) (q : OrderQueue) :
    queueMass (matchQueueAsk a q).queue =
      queueMass q - tradesQty (matchQueueAsk a q).trades := by
  induction q generalizing a with
  | nil => simp [matchQueueAsk, queueMass, tradesQty]
  | cons b rest ih =>
    rw [matchQueueAsk]
    by_cases hf : a.isFilled
    · simp [hf, tradesQty]
    · simp only [hf, Bool.false_eq_true, if_false]
      split
      · next hb2 =>
        have hfill : b.quantity = min a.quantity b.quantity := by
          simp only [Order.isFilled, decide_eq_true_eq] at hb2
          have := min_le_right a.quantity b.quantity
          linarith
        have := ih { a with quantity := a.quantity - min a.quantity b.quantity }
        simp only [queueMass, tradesQty, List.map_cons, List.sum_cons] at this ⊢
        rw [this]
        rw [← hfill]
        ring
      · simp only [queueMass, tradesQty, List.map_cons, List.sum_cons,
          List.map_nil, List.sum_nil]
        ring

theorem matchBidLevels_mass (b : Order) (l : Ladder) :
    ladderMass (matchBidLevels b l).ladder =
      ladderMass l - tradesQty (matchBidLevels b l).trades := by
  induction l generalizing b with
  | nil => simp [matchBidLevels, tradesQty]
  | cons pq rest ih =>
    obtain ⟨p, q⟩ := pq
    rw [matchBidLevels]
    by_cases hf : b.isFilled
    · simp [hf, tradesQty]
    · by_cases hp : b.price < p
      · simp [hf, hp, tradesQty]
      · simp only [hf, hp, Bool.false_eq_true, if_false]
        have hq := matchQueueBid_mass b q
        split
        · next hempty =>
          have hqz : queueMass (matchQueueBid b q).queue = 0 := by
            rw [List.isEmpty_iff.mp hempty]
            simp [queueMass]
          have := ih (matchQueueBid b q).agg
          rw [this, ladderMass_cons]
          simp only [tradesQty, List.map_append, List.sum_append]
          rw [hqz] at hq
          simp only [tradesQty] at hq
          linarith
        · rw [ladderMass_cons, ladderMass_cons, hq]
          ring

theorem matchAskLevels_mass (a : Order) (l : Ladder) :
    ladderMass (matchAskLevels a l).ladder =
      ladderMass l - tradesQty (matchAskLevels a l).trades := by
  induction l generalizing a with
  | nil => simp [matchAskLevels, tradesQty]
  | cons pq rest ih =>
    obtain ⟨p, q⟩ := pq
    rw [matchAskLevels]
    by_cases hf : a.isFilled
    · simp [hf, tradesQty]
    · by_cases hp : p < a.price
      · simp [hf, hp, tradesQty]
      · simp only [hf, hp, Bool.false_eq_true, if_false]
        have hq := matchQueueAsk_mass a q
        split
        · next hempty =>
          have hqz : queueMass (matchQueueAsk a q).queue = 0 := by
            rw [List.isEmpty_iff.mp hempty]
            simp [queueMass]
          have := ih (matchQueueAsk a q).agg
          rw [this, ladderMass_cons]
          simp only [tradesQty, List.map_append, List.sum_append]
          rw [hqz] at hq
          simp only [tradesQty] at hq
          linarith
        · rw [ladderMass_cons, ladderMass_cons, hq]
          ring

theorem matchQueueBid_agg_nonneg (b : Order) (q : OrderQueue)
    (h : 0 ≤ b.quantity) : 0 ≤ (matchQueueBid b q).agg.quantity := by
  induction q generalizing b with
  | nil => simpa [matchQueueBid] using h
  | cons a rest ih =>
    rw [matchQueueBid]
    by_cases hf : b.isFilled
    · simpa [hf] using h
    · simp only [hf, Bool.false_eq_true, if_false]
      split
      · exact ih _ (by
          simp only
          have := min_le_left b.quantity a.quantity
          linarith)
      · simp only
        have := min_le_left b.quantity a.quantity
        linarith

theorem matchQueueAsk_agg_nonneg (a : Order) (q : OrderQueue)
    (h : 0 ≤ a.quantity) : 0 ≤ (matchQueueAsk a q).agg.quantity := by
  induction q generalizing a with
  | nil => simpa [matchQueueAsk] using h
  | cons b rest ih =>
    rw [matchQueueAsk]
    by_cases hf : a.isFilled
    · simpa [hf] using h
    · simp only [hf, Bool.false_eq_true, if_false]
      split
      · exact ih _ (by
          simp only
          have := min_le_left a.quantity b.quantity
          linarith)
      · simp only
        have := min_le_left a.quantity b.quantity
        linarith

theorem matchBidLevels_agg_nonneg (b : Order) (l : Ladder)
    (h : 0 ≤ b.quantity) : 0 ≤ (matchBidLevels b l).agg.quantity := by
  induction l generalizing b with
  | nil => simpa [matchBidLevels] using h
  | cons pq rest ih =>
    obtain ⟨p, q⟩ := pq
    rw [matchBidLevels]
    by_cases hf : b.isFilled
    · simpa [hf] using h
    · by_cases hp : b.price < p
      · simpa [hf, hp] using h
      · simp only [hf, hp, Bool.false_eq_true, if_false]
        split
        · exact ih _ (matchQueueBid_agg_nonneg b q h)
        · exact matchQueueBid_agg_nonneg b q h

theorem matchAskLevels_agg_nonneg (a : Order) (l : Ladder)
    (h : 0 ≤ a.quantity) : 0 ≤ (matchAskLevels a l).agg.quantity := by
  induction l generalizing a with
  | nil => simpa [matchAskLevels] using h
  | cons pq rest ih =>
    obtain ⟨p, q⟩ := pq
    rw [matchAskLevels]
    by_cases hf : a.isFilled
    · simpa [hf] using h
    · by_cases hp : p < a.price
      · simpa [hf, hp] using h
      · simp only [hf, hp, Bool.false_eq_true, if_false]
        split
        · exact ih _ (matchQueueAsk_agg_nonneg a q h)
        · exact matchQueueAsk_agg_nonneg a q h

theorem addToLadderAsc_mass (o : Order) (l : Ladder) :
    ladderMass (addToLadderAsc o l) = ladderMass l + o.quantity := by
  induction l with
  | nil => simp [addToLadderAsc, ladderMass, queueMass]
  | cons pq rest ih =>
    obtain ⟨p, q⟩ := pq
    rw [addToLadderAsc]
    by_cases h1 : o.price < p
    · rw [if_pos h1, ladderMass_cons, ladderMass_cons]
      simp [queueMass]
      ring
    · by_cases h2 : o.price = p
      · rw [if_neg h1, if_pos h2, ladderMass_cons, ladderMass_cons]
        simp [queueMass]
        ring
      · rw [if_neg h1, if_neg h2, ladderMass_cons, ladderMass_cons, ih]
        ring

theorem addToLadderDesc_mass (o : Order) (l : Ladder) :
    ladderMass (addToLadderDesc o l) = ladderMass l + o.quantity := by
  induction l with
  | nil => simp [addToLadderDesc, ladderMass, queueMass]
  | cons pq rest ih =>
    obtain ⟨p, q⟩ := pq
    rw [addToLadderDesc]
    by_cases h1 : p < o.price
    · rw [if_pos h1, ladderMass_cons, ladderMass_cons]
      simp [queueMass]
      ring
    · by_cases h2 : o.price = p
      · rw [if_neg h1, if_pos h2, ladderMass_cons, ladderMass_cons]
        simp [queueMass]
        ring
      · rw [if_neg h1, if_neg h2, ladderMass_cons, ladderMass_cons, ih]
        ring

theorem queueMass_eraseP (pred : Order → Bool) (q : OrderQueue) :
    queueMass (q.eraseP pred) =
      queueMass q -
        (match q.find? pred with
         | none => 0
         | some o => o.quantity) := by
  induction q with
  | nil => simp [queueMass]
  | cons a rest ih =>
    by_cases h : pred a
    · rw [List.eraseP_cons_of_pos h, List.find?_cons_of_pos rest h]
      simp [queueMass]
    · rw [List.eraseP_cons_of_neg (by simp [h]),
        List.find?_cons_of_neg rest (by simp [h])]
      simp only [queueMass, List.map_cons, List.sum_cons] at ih ⊢
      rw [ih]
      split <;> ring

theorem removeFromLadder_mass (p : ℚ) (orderId : Nat) (l : Ladder) :
    ladderMass (removeFromLadder p orderId l) =
      ladderMass l -
        (match l.find? (fun x => x.1 == p) with
         | none => 0
         | some pq =>
           match pq.2.find? (fun o => o.id == orderId) with
           | none => 0
           | some o => o.quantity) := by
  induction l with
  | nil => simp [removeFromLadder, ladderMass]
  | cons pq rest ih =>
    obtain ⟨lp, q⟩ := pq
    rw [removeFromLadder]
    by_cases h1 : lp = p
    · rw [if_pos h1]
      have hbe : (lp == p) = true := by simp [h1]
      rw [List.find?_cons_of_pos rest hbe]
      dsimp only
      have hq := queueMass_eraseP (fun o => o.id == orderId) q
      split
      · next hempty =>
        have : queueMass (q.eraseP (fun o => o.id == orderId)) = 0 := by
          rw [List.isEmpty_iff.mp hempty]
          simp [queueMass]
        rw [this] at hq
        rw [ladderMass_cons]
        split at hq <;> linarith
      · rw [ladderMass_cons, ladderMass_cons, hq]
        split <;> ring
    · rw [if_neg h1]
      have hbe : (lp == p) = false := by simp [h1]
      rw [List.find?_cons_of_neg rest (by simp [hbe])]
      rw [ladderMass_cons, ladderMass_cons, ih]
      split <;> ring

theorem cancelOrder_mass (bk : OrderBook) (orderId : Nat) :
    (bk.cancelOrder orderId).2.bookMass =
      bk.bookMass - cancelledQty bk orderId := by
  unfold OrderBook.cancelOrder cancelledQty
  cases hfind : bk.orderIndex.find? (fun e => e.1 == orderId) with
  | none => simp
  | some e =>
    cases he : e.2.side
    case bid =>
      simp only [he, OrderBook.sideLadder, OrderBook.bookMass]
      rw [removeFromLadder_mass]
      split <;> ring
    case ask =>
      simp only [he, OrderBook.sideLadder, OrderBook.bookMass]
      rw [removeFromLadder_mass]
      split <;> ring

theorem addOrder_mass (bk : OrderBook) (side : Side) (p q : ℚ) (hq : 0 < q) :
    (bk.addOrder side p q).book.bookMass =
      bk.bookMass + q - 2 * tradesQty (bk.addOrder side p q).trades := by
  cases side
  case bid =>
    rw [addOrder_bid_eq]
    have hm := matchBidLevels_mass (Order.mk bk.nextOrderId Side.bid p q) bk.asks
    have hg :
        (matchBidLevels (Order.mk bk.nextOrderId Side.bid p q) bk.asks).agg.quantity =
          q - tradesQty
            (matchBidLevels (Order.mk bk.nextOrderId Side.bid p q) bk.asks).trades := by
      have := (matchBidLevels_agg (Order.mk bk.nextOrderId Side.bid p q) bk.asks).2.2.2
      simpa [tradesQty] using this
    have hside :=
      (matchBidLevels_agg (Order.mk bk.nextOrderId Side.bid p q) bk.asks).2.1
    by_cases hf :
        (matchBidLevels (Order.mk bk.nextOrderId Side.bid p q) bk.asks).agg.isFilled
    · rw [if_pos hf]
      have h0 := (Order.isFilled_iff _).mp hf
      have h1 : 0 ≤
          (matchBidLevels (Order.mk bk.nextOrderId Side.bid p q) bk.asks).agg.quantity :=
        matchBidLevels_agg_nonneg _ _ (le_of_lt hq)
      have hz : (matchBidLevels
          (Order.mk bk.nextOrderId Side.bid p q) bk.asks).agg.quantity = 0 :=
        le_antisymm h0 h1
      rw [hg] at hz
      simp only [OrderBook.bookMass]
      rw [hm]
      linarith
    · rw [if_neg hf]
      unfold OrderBook.addToBook
      rw [hside]
      simp only [OrderBook.bookMass]
      rw [addToLadderDesc_mass, hm, hg]
      ring
  case ask =>
    rw [addOrder_ask_eq]
    have hm := matchAskLevels_mass (Order.mk bk.nextOrderId Side.ask p q) bk.bids
    have hg :
        (matchAskLevels (Order.mk bk.nextOrderId Side.ask p q) bk.bids).agg.quantity =
          q - tradesQty
            (matchAskLevels (Order.mk bk.nextOrderId Side.ask p q) bk.bids).trades := by
      have := (matchAskLevels_agg (Order.mk bk.nextOrderId Side.ask p q) bk.bids).2.2.2
      simpa [tradesQty] using this
    have hside :=
      (matchAskLevels_agg (Order.mk bk.nextOrderId Side.ask p q) bk.bids).2.1
    by_cases hf :
        (matchAskLevels (Order.mk bk.nextOrderId Side.ask p q) bk.bids).agg.isFilled
    · rw [if_pos hf]
      have h0 := (Order.isFilled_iff _).mp hf
      have h1 : 0 ≤
          (matchAskLevels (Order.mk bk.nextOrderId Side.ask p q) bk.bids).agg.quantity :=
        matchAskLevels_agg_nonneg _ _ (le_of_lt hq)
      have hz : (matchAskLevels
          (Order.mk bk.nextOrderId Side.ask p q) bk.bids).agg.quantity = 0 :=
        le_antisymm h0 h1
      rw [hg] at hz
      simp only [OrderBook.bookMass]
      rw [hm]
      linarith
    · rw [if_neg hf]
      unfold OrderBook.addToBook
      rw [hside]
      simp only [OrderBook.bookMass]
      rw [addToLadderAsc_mass, hm, hg]
      ring

theorem runStats_conservation (ops : List Op) (bk : OrderBook)
    (hpos : ∀ op ∈ ops, op.qtyPositive = true) :
    placedSum ops + bk.bookMass =
      2 * (runStats bk ops).traded + (runStats bk ops).book.bookMass +
        (runStats bk ops).cancelled := by
  induction ops generalizing bk with
  | nil => simp [placedSum, runStats]
  | cons op rest ih =>
    cases op with
    | add s p q =>
      have hq : 0 < q := by
        have := hpos (Op.add s p q) (List.mem_cons_self _ _)
        simpa [Op.qtyPositive] using this
      have hstep := addOrder_mass bk s p q hq
      have hrec := ih (bk.addOrder s p q).book
        (fun op hop => hpos op (List.mem_cons_of_mem _ hop))
      rw [runStats]
      simp only [placedSum, List.map_cons, List.sum_cons, Op.placedQty]
      simp only [placedSum] at hrec
      linarith
    | cancel i =>
      have hstep := cancelOrder_mass bk i
      have hrec := ih (bk.cancelOrder i).2
        (fun op hop => hpos op (List.mem_cons_of_mem _ hop))
      rw [runStats]
      simp only [placedSum, List.map_cons, List.sum_cons, Op.placedQty]
      simp only [placedSum] at hrec
      linarith

/-- Counterexample to claim C6: on the trace "add (BID,100,1); add
(ASK,100,1)" the spec's equation ` Σ placed = Σ traded × 2 + Σ resting +
Σ fully-filled-without-rest ` fails: placed = 2 but traded×2 = 2 and the
never-rested ask's quantity 1 is counted again (2 ≠ 3) — that quantity is
already inside the traded term. -/
theorem C6_counterexample :
    ¬ (placedSum [Op.add Side.bid 100 1, Op.add Side.ask 100 1] =
      2 * (runStats emptyBook [Op.add Side.bid 100 1, Op.add Side.ask 100 1]).traded +
      (runStats emptyBook [Op.add Side.bid 100 1, Op.add Side.ask 100 1]).book.bookMass +
      (runStats emptyBook [Op.add Side.bid 100 1, Op.add Side.ask 100 1]).neverRested) := by
  have hrun : runStats emptyBook [Op.add Side.bid 100 1, Op.add Side.ask 100 1] =
      ⟨⟨[], [], [], 3, 1, 100⟩, 1, 0, 1⟩ := by
    norm_num [runStats, OrderBook.addOrder, matchBidLevels, matchAskLevels,
      matchQueueBid, matchQueueAsk, Order.isFilled, OrderBook.addToBook,
      addToLadderAsc, addToLadderDesc, emptyBook, eraseIds, lastTradePrice,
      tradesQty, cancelledQty, List.eraseP, List.find?]
  rw [hrun]
  norm_num [placedSum, Op.placedQty, OrderBook.bookMass, ladderMass]

/-- Claim C6 as amended: for every trace of `addOrder` calls with positive
quantities and arbitrary `cancelOrder` calls from a fresh book,
`Σ placed = Σ traded × 2 + Σ resting + Σ cancelled-residual`; orders fully
filled without resting contribute only through the traded term (which
already counts one bid unit and one ask unit per trade). -/
theorem C6_mass_conservation (ops : List Op)
    (hpos : ∀ op ∈ ops, op.qtyPositive = true) :
    placedSum ops =
      2 * (runStats emptyBook ops).traded +
      (runStats emptyBook ops).book.bookMass +
      (runStats emptyBook ops).cancelled := by
  have h := runStats_conservation ops emptyBook hpos
  have hm : emptyBook.bookMass = 0 := by
    simp [emptyBook, OrderBook.bookMass, ladderMass]
  rw [hm] at h
  linarith

/-- Witness for the amended C6 on a concrete trace with rests, a full fill
and a cancel. -/
theorem C6_witness :
    placedSum [Op.add Side.bid 100 1, Op.add Side.bid 99 2,
        Op.add Side.ask 100 1, Op.cancel 2] =
      2 * (runStats emptyBook [Op.add Side.bid 100 1, Op.add Side.bid 99 2,
        Op.add Side.ask 100 1, Op.cancel 2]).traded +
      (runStats emptyBook [Op.add Side.bid 100 1, Op.add Side.bid 99 2,
        Op.add Side.ask 100 1, Op.cancel 2]).book.bookMass +
      (runStats emptyBook [Op.add Side.bid 100 1, Op.add Side.bid 99 2,
        Op.add Side.ask 100 1, Op.cancel 2]).cancelled :=
  C6_mass_conservation
    [Op.add Side.bid 100 1, Op.add Side.bid 99 2,
      Op.add Side.ask 100 1, Op.cancel 2]
    (by decide)

/-- Witness for C2: a concrete two-level sweep; every trade names the
incoming bid (the freshly allocated id). -/
theorem C2_witness :
    ∀ t ∈ (((emptyBook.addOrder Side.ask 101 1).book.addOrder
        Side.ask 102 1).book.addOrder Side.bid 102 3).trades,
      t.bidOrderId =
        ((emptyBook.addOrder Side.ask 101 1).book.addOrder
          Side.ask 102 1).book.nextOrderId :=
  (C2_price_time_priority
    ((emptyBook.addOrder Side.ask 101 1).book.addOrder Side.ask 102 1).book
    102 3).1.2.2
